import Mathlib

/-!
Shallow embedding of `src/core.py` (the `FileContext` class and the
`traverse` function) of the media-workflow repository.

Paths are modelled as lists of characters (`Str`).  The string-level path
operations (`os.path.join`, `os.path.dirname`, `os.path.basename`,
`str.rsplit`, `str.lower`, `str.endswith`, `pathlib` normalisation) are
translated from CPython's `posixpath`/`pathlib` semantics.  The filesystem
is a finite association list from parsed paths to an entry kind (file or
directory); syscalls (`exists`, `isfile`, `iterdir`, `makedirs`,
`os.rename`, `os.remove`) resolve a path string through `parsePath`, which
models kernel path resolution (splitting on slashes, dropping empty and
dot components).
-/

/-- Paths and file names, as Python strings (lists of characters). -/
abbrev Str := List Char

/-- The character list of a Lean string literal. -/
def strL (s : String) : Str := s.data

/-- ASCII case folding of one character, as `str.lower` acts on ASCII. -/
def lowerChar (c : Char) : Char :=
  if 65 ≤ c.toNat ∧ c.toNat ≤ 90 then Char.ofNat (c.toNat + 32) else c

/-- `s.lower()` on ASCII strings. -/
def lowerS (s : Str) : Str := s.map lowerChar

/-- Split a string on a separator character, as `str.split(sep)`:
`splitSep "a/b/" = ["a", "b", ""]`, `splitSep "" = [""]`. -/
def splitSep : Str → List Str
  | [] => [[]]
  | c :: cs =>
    if c = '/' then [] :: splitSep cs
    else
      match splitSep cs with
      | [] => [[c]]
      | g :: gs => (c :: g) :: gs

/-- A resolved path: absolute flag plus the list of path components,
with empty and `.` components dropped (kernel path resolution /
`pathlib` parsing, symlinks and `..` aside). -/
structure PathC where
  abs : Bool
  comps : List Str
deriving DecidableEq, Repr

/-- Parse a path string into its resolved form. -/
def parsePath (p : Str) : PathC :=
  { abs := p.head? = some '/'
    comps := (splitSep p).filter (fun c => ¬(c = [] ∨ c = ['.'])) }

/-- Interpose `/` between components. -/
def interSep : List Str → Str
  | [] => []
  | [c] => c
  | c :: cs => c ++ '/' :: interSep cs

/-- Render a resolved path back to its canonical string, as
`str(pathlib.PurePosixPath(...))` renders it (`"."` for the empty
relative path, `"/"` for the root). -/
def renderPath (pc : PathC) : Str :=
  match pc.comps with
  | [] => if pc.abs then ['/'] else ['.']
  | cs => (if pc.abs then ['/'] else []) ++ interSep cs

/-- `str(pathlib.Path(p))`: parse and re-render. -/
def normStr (p : Str) : Str := renderPath (parsePath p)

/-- `str(pathlib.Path(d) / n)` for an entry name `n` yielded by
`os.listdir`: the parsed directory with `n` appended, rendered. -/
def childStr (d : Str) (n : Str) : Str :=
  renderPath { abs := (parsePath d).abs, comps := (parsePath d).comps ++ [n] }

/-- A legal directory-entry name: nonempty, no slash, not `.`. -/
def validName (n : Str) : Prop := n ≠ [] ∧ '/' ∉ n ∧ n ≠ ['.']

/-- Split a string at the LAST occurrence of `c`:
`rsplit1 c s = some (before, after)` with `s = before ++ c :: after` and
`c ∉ after`; `none` when `c ∉ s`.  This is `s.rsplit(c, 1)` restricted to
the interesting case. -/
def rsplit1 (c : Char) (s : Str) : Option (Str × Str) :=
  let r := s.reverse
  match r.dropWhile (fun x => ¬ x = c) with
  | [] => none
  | _ :: before => some (before.reverse, (r.takeWhile (fun x => ¬ x = c)).reverse)

/-- `s.rsplit(c, 1)[0]`: the part before the last `c`, or all of `s` when
`c` does not occur. -/
def rsplitHead (c : Char) (s : Str) : Str :=
  match rsplit1 c s with
  | none => s
  | some (a, _) => a

/-- `os.path.basename` (POSIX): everything after the last slash. -/
def basename (p : Str) : Str :=
  match rsplit1 '/' p with
  | none => p
  | some (_, b) => b

/-- Strip trailing slashes, as `str.rstrip("/")`. -/
def rstripSep (l : Str) : Str := (l.reverse.dropWhile (fun x => x = '/')).reverse

/-- `os.path.dirname` (POSIX): the part up to and including the last
slash, with trailing slashes stripped unless the head is all slashes. -/
def dirname (p : Str) : Str :=
  match rsplit1 '/' p with
  | none => []
  | some (before, _) =>
    let head := before ++ ['/']
    if head.all (fun x => x = '/') then head else rstripSep head

/-- `os.path.join(a, b)` (POSIX, two arguments). -/
def joinPath (a b : Str) : Str :=
  if b.head? = some '/' then b
  else if a = [] then b
  else if a.getLast? = some '/' then a ++ b
  else a ++ '/' :: b

/-- `str.replace(c, r)` for a one-character pattern. -/
def replaceChar (c : Char) (r : Str) (s : Str) : Str :=
  s.flatMap (fun x => if x = c then r else [x])

/-- Kind of a filesystem entry. -/
inductive EKind where
  | file
  | dir
deriving DecidableEq, Repr

/-- A filesystem: a finite list of (resolved path, kind) entries.  The
list order is the order `os.listdir` yields names in. -/
structure FS where
  entries : List (PathC × EKind)
deriving DecidableEq, Repr

/-- Kind of the entry at a resolved path, if any (a `stat` call). -/
def FS.kindOf (fs : FS) (p : PathC) : Option EKind :=
  (fs.entries.find? (fun e => e.1 = p)).map (fun e => e.2)

/-- `os.path.exists` on a path string. -/
def FS.exists_ (fs : FS) (p : Str) : Bool :=
  (fs.kindOf (parsePath p)).isSome

/-- `os.path.isfile` on a path string. -/
def FS.isfile (fs : FS) (p : Str) : Bool :=
  fs.kindOf (parsePath p) = some EKind.file

/-- `os.path.isdir` on a path string. -/
def FS.isdir (fs : FS) (p : Str) : Bool :=
  fs.kindOf (parsePath p) = some EKind.dir

/-- `os.listdir` of a resolved directory path: the names of the direct
children, in entry order. -/
def FS.childNames (fs : FS) (q : PathC) : List Str :=
  fs.entries.filterMap (fun e =>
    if e.1.abs = q.abs ∧ e.1.comps.dropLast = q.comps ∧ e.1.comps ≠ [] then
      e.1.comps.getLast?
    else none)

/-- Walk the component prefixes of a path outward, creating each missing
one as a directory; fail (as `os.makedirs` raises) when a prefix exists
as a file.  Returns the success flag and the filesystem with whatever was
created before any failure (Python's partial-creation behaviour). -/
def FS.mkdirsAux (ab : Bool) : FS → List Str → List Str → Bool × FS
  | fs, _, [] => (true, fs)
  | fs, done, c :: rest =>
    let cur := done ++ [c]
    match fs.kindOf ⟨ab, cur⟩ with
    | some EKind.dir => FS.mkdirsAux ab fs cur rest
    | some EKind.file => (false, fs)
    | none => FS.mkdirsAux ab ⟨fs.entries ++ [(⟨ab, cur⟩, EKind.dir)]⟩ cur rest

/-- `os.makedirs(p)` (with the caller having checked `p` does not
exist): create `p` and all missing ancestors. -/
def FS.mkdirAll (fs : FS) (p : PathC) : Bool × FS :=
  FS.mkdirsAux p.abs fs [] p.comps

/-- `os.rename(src, dst)`: fails (raises `FileNotFoundError`) when `src`
does not exist; otherwise moves the entry to `dst`, replacing any entry
already there. -/
def FS.rename (fs : FS) (src dst : Str) : Except Unit FS :=
  match fs.kindOf (parsePath src) with
  | none => Except.error ()
  | some k =>
    Except.ok ⟨(fs.entries.filter (fun e =>
        ¬(e.1 = parsePath src ∨ e.1 = parsePath dst))) ++ [(parsePath dst, k)]⟩

/-- `os.remove(p)`: drop the entry at `p`. -/
def FS.remove (fs : FS) (p : Str) : FS :=
  ⟨fs.entries.filter (fun e => ¬ e.1 = parsePath p)⟩

/-- The File Transaction of `src/core.py`: the `FileContext` attributes
set by `__init__` and mutated by `set_format`. -/
structure FileContext where
  original_file : Str
  temp_file : Str
  final_file : Str
  original_file_name : Str
  temp_file_name : Str
deriving DecidableEq, Repr

/-- `FileContext.convert_file_name`: backslash-escape spaces and single
quotes for shell embedding. -/
def FileContext.convert_file_name (name : Str) : Str :=
  replaceChar (Char.ofNat 39) [Char.ofNat 92, Char.ofNat 39]
    (replaceChar ' ' [Char.ofNat 92, ' '] name)

/-- The name of the staging subdirectory, `"compressed"`. -/
def compressedName : Str := strL ("compressed")

/-- The `"-temp."` marker inserted before the extension of staging
files. -/
def tempMarker : Str := strL ("-temp.")

/-- `FileContext.__init__(original_file)`.  Returns `none` in place of a
raised exception: `ValueError` from unpacking `rsplit` when the file name
has no dot (raised before any side effect), or an `OSError` from
`os.makedirs`.  The returned filesystem carries the side effect of
creating the `compressed` staging directory. -/
def FileContext.init (fs : FS) (original_file : Str) : Option FileContext × FS :=
  let file_dir := dirname original_file
  let file_name := basename original_file
  match rsplit1 '.' file_name with
  | none => (none, fs)
  | some (name, format) =>
    let compressed_dir := joinPath file_dir compressedName
    let step :=
      if fs.exists_ compressed_dir then (true, fs)
      else fs.mkdirAll (parsePath compressed_dir)
    if step.1 then
      let temp_file := joinPath compressed_dir (name ++ tempMarker ++ format)
      let final_file := joinPath compressed_dir file_name
      (some { original_file := original_file
              temp_file := temp_file
              final_file := final_file
              original_file_name := FileContext.convert_file_name original_file
              temp_file_name := FileContext.convert_file_name temp_file }, step.2)
    else (none, step.2)

/-- `FileContext.set_format(format)`: change the extension of the
staging path (keeping its base name, hence the `-temp` marker) and of the
final path (recomputed from the original file's base name), and recompute
the escaped staging name. -/
def FileContext.set_format (self : FileContext) (format : Str) : FileContext :=
  let temp_name := rsplitHead '.' (basename self.temp_file)
  let compressed_dir := dirname self.temp_file
  let temp_file := joinPath compressed_dir (temp_name ++ '.' :: format)
  let final_name := rsplitHead '.' (basename self.original_file)
  let final_file := joinPath compressed_dir (final_name ++ '.' :: format)
  { self with
    temp_file := temp_file
    temp_file_name := FileContext.convert_file_name temp_file
    final_file := final_file }

/-- `FileContext.archive_original_file`: a deliberate no-op. -/
def FileContext.archive_original_file (self : FileContext) (fs : FS) : FS := fs

/-- `FileContext.delete_original_file`: remove the original if it still
exists; otherwise do nothing. -/
def FileContext.delete_original_file (self : FileContext) (fs : FS) : FS :=
  if fs.exists_ self.original_file then fs.remove self.original_file else fs

/-- `FileContext.rename_temp_file`: rename the staging file to the final
path; the error propagates (the filesystem is unchanged on error). -/
def FileContext.rename_temp_file (self : FileContext) (fs : FS) : Except Unit FS :=
  fs.rename self.temp_file self.final_file

/-- `path.lower().endswith(ext.lower())`: case-insensitive extension
match, as `traverse` tests it. -/
def endsWithCI (ext s : Str) : Bool := (lowerS ext).isSuffixOf (lowerS s)

/-- The warning messages `traverse` prints (with the path each message
carries).  Spontaneous per-entry `OSError`s while statting or listing are
not modelled, so the two `Cannot access` messages never arise. -/
inductive Msg where
  | notFound (p : Str)
  | notDir (p : Str)
  | skipMissing (p : Str)
  | errorProcessing (p : Str)
deriving DecidableEq, Repr

/-- The observable outcome of a `traverse` run: the filesystem after the
run, the list of paths for which the Transform Operation was invoked (in
invocation order), the warning messages printed, and — as ghost
instrumentation — the directories whose contents were iterated. -/
structure TravOut where
  fs : FS
  log : List Str
  msgs : List Msg
  visits : List Str
deriving DecidableEq, Repr

/-- The loop body of `traverse` over the snapshot of names yielded by
`directory.iterdir()`.  `rec` is the recursive `traverse` call supplied by
`traverse` (one fuel level down).  For each name: recompute the entry
path as `os.path.join(dir, str(Path(dir) / name))` — the source joins the
root with an entry path that already includes the root — then check
existence, recurse into directories when `recursive` is set, and for a
file matching the extension filter construct a `FileContext` and invoke
the operation, catching any exception and continuing. -/
def traverseLoop (op : FileContext → Bool) (format : Str) (recursive : Bool)
    (rec : Str → FS → TravOut) (dir : Str) : List Str → FS → TravOut
  | [], fs => ⟨fs, [], [], []⟩
  | n :: ns, fs =>
    let obj_relative_path := joinPath dir (childStr dir n)
    if fs.exists_ obj_relative_path = false then
      let r := traverseLoop op format recursive rec dir ns fs
      ⟨r.fs, r.log, Msg.skipMissing obj_relative_path :: r.msgs, r.visits⟩
    else if fs.isfile obj_relative_path = false then
      if recursive then
        let r1 := rec obj_relative_path fs
        let r2 := traverseLoop op format recursive rec dir ns r1.fs
        ⟨r2.fs, r1.log ++ r2.log, r1.msgs ++ r2.msgs, r1.visits ++ r2.visits⟩
      else traverseLoop op format recursive rec dir ns fs
    else if endsWithCI format obj_relative_path then
      match FileContext.init fs obj_relative_path with
      | (some ctx, fs1) =>
        let failMsgs := if op ctx then [] else [Msg.errorProcessing obj_relative_path]
        let r := traverseLoop op format recursive rec dir ns fs1
        ⟨r.fs, obj_relative_path :: r.log, failMsgs ++ r.msgs, r.visits⟩
      | (none, fs1) =>
        let r := traverseLoop op format recursive rec dir ns fs1
        ⟨r.fs, r.log, Msg.errorProcessing obj_relative_path :: r.msgs, r.visits⟩
    else traverseLoop op format recursive rec dir ns fs

/-- `traverse(dir, format, func, ..., recursive)` with explicit fuel
bounding the recursion depth (the Python recursion is bounded by the
directory tree's depth; any fuel beyond that bound gives the same
result).  Validates that the root exists and is a directory, then runs
the entry loop over the listing snapshot. -/
def traverse (op : FileContext → Bool) (format : Str) (recursive : Bool) :
    Nat → Str → FS → TravOut
  | 0, _, fs => ⟨fs, [], [], []⟩
  | fuel + 1, dir, fs =>
    if fs.exists_ dir = false then ⟨fs, [], [Msg.notFound (normStr dir)], []⟩
    else if fs.isdir dir = false then ⟨fs, [], [Msg.notDir (normStr dir)], []⟩
    else
      let names := fs.childNames (parsePath dir)
      let r := traverseLoop op format recursive
        (traverse op format recursive fuel) dir names fs
      ⟨r.fs, r.log, r.msgs, dir :: r.visits⟩

/-- Keys (resolved paths) of a filesystem are distinct. -/
def FS.Nodup (fs : FS) : Prop := (fs.entries.map Prod.fst).Nodup

/-- Every nonempty proper component-prefix of an entry is present as a
directory, and an entry with no components can only be the root. -/
def FS.Closed (fs : FS) : Prop :=
  ∀ e ∈ fs.entries, ∀ k, k < e.1.comps.length → 0 < k →
    (⟨e.1.abs, e.1.comps.take k⟩, EKind.dir) ∈ fs.entries

/-- All component names of all entries are legal directory-entry names,
and only an absolute root entry may have no components. -/
def FS.ValidNames (fs : FS) : Prop :=
  ∀ e ∈ fs.entries, (∀ n ∈ e.1.comps, validName n) ∧ (e.1.comps = [] → e.1.abs = true)

/-- A well-formed filesystem snapshot. -/
def FS.WF (fs : FS) : Prop := fs.Nodup ∧ fs.Closed ∧ fs.ValidNames

/-- The greatest component-count among entries: a bound on the depth of
the directory tree. -/
def FS.maxLen (fs : FS) : Nat :=
  fs.entries.foldr (fun e m => max e.1.comps.length m) 0

/-- One filesystem extends another by appended directory entries, none
deeper than the original tree: the only writes `traverse` itself performs
are `os.makedirs` calls for `compressed` staging directories. -/
def FS.Ext (fs fs' : FS) : Prop :=
  ∃ new, fs'.entries = fs.entries ++ new ∧
    ∀ e ∈ new, e.2 = EKind.dir ∧ e.1.comps.length ≤ fs.maxLen

/-- The extension (the part after the last dot) of the base name of a
path, when the base name has a dot. -/
def extAfter (s : Str) : Option Str :=
  (rsplit1 '.' (basename s)).map (fun x => x.2)

/-- `validName` is decidable (used to evaluate well-formedness of
concrete filesystems). -/
instance instDecidableValidName (n : Str) : Decidable (validName n) := by
  unfold validName
  infer_instance

/-- Decidability of the filesystem well-formedness predicates, for
evaluating them on concrete filesystems. -/
instance instDecidableNodup (fs : FS) : Decidable fs.Nodup := by
  unfold FS.Nodup
  infer_instance

instance instDecidableClosed (fs : FS) : Decidable fs.Closed := by
  unfold FS.Closed
  infer_instance

instance instDecidableValidNames (fs : FS) : Decidable fs.ValidNames := by
  unfold FS.ValidNames
  infer_instance

instance instDecidableWF (fs : FS) : Decidable fs.WF := by
  unfold FS.WF
  infer_instance

/-- A concrete filesystem for witnesses: the directory `/d` holding the
file `/d/clip.MOV`. -/
def fsClip : FS :=
  ⟨[(⟨true, [strL ("d")]⟩, EKind.dir),
    (⟨true, [strL ("d"), strL ("clip.MOV")]⟩, EKind.file)]⟩

/-- The File Transaction `FileContext.__init__` builds for
`/d/clip.MOV` on `fsClip`. -/
def ctxClip : FileContext :=
  { original_file := strL ("/d/clip.MOV")
    temp_file := strL ("/d/compressed/clip-temp.MOV")
    final_file := strL ("/d/compressed/clip.MOV")
    original_file_name := strL ("/d/clip.MOV")
    temp_file_name := strL ("/d/compressed/clip-temp.MOV") }

/-- `fsClip` after that construction: the staging directory
`/d/compressed` has been created. -/
def fsClipAfter : FS :=
  ⟨fsClip.entries ++ [(⟨true, [strL ("d"), compressedName]⟩, EKind.dir)]⟩

/-- Pairing invariant of a File Transaction: the staging and final paths
are `<cd>/<tn>.<ext>` and `<cd>/<fn>.<ext>` for a common well-shaped
parent `cd` and a common extension tail `ext`. -/
def Paired (ctx : FileContext) : Prop :=
  ∃ cd tn fn ex : Str, cd ≠ [] ∧ cd.getLast? ≠ some '/' ∧
    '/' ∉ tn ∧ '/' ∉ fn ∧ '/' ∉ ex ∧
    ctx.temp_file = cd ++ '/' :: (tn ++ '.' :: ex) ∧
    ctx.final_file = cd ++ '/' :: (fn ++ '.' :: ex)

/-- A concrete filesystem with relative paths: the directory `rel`
holding the file `rel/a.mp4` (as seen from the working directory). -/
def fsRel : FS :=
  ⟨[(⟨false, [strL ("rel")]⟩, EKind.dir),
    (⟨false, [strL ("rel"), strL ("a.mp4")]⟩, EKind.file)]⟩

/-- A concrete filesystem: absolute directory `/d` with files
`/d/a.mp4` and `/d/b.txt` and a subdirectory `/d/sub` holding
`/d/sub/c.mp4`. -/
def fsAbs : FS :=
  ⟨[(⟨true, [strL ("d")]⟩, EKind.dir),
    (⟨true, [strL ("d"), strL ("a.mp4")]⟩, EKind.file),
    (⟨true, [strL ("d"), strL ("b.txt")]⟩, EKind.file),
    (⟨true, [strL ("d"), strL ("sub")]⟩, EKind.dir),
    (⟨true, [strL ("d"), strL ("sub"), strL ("c.mp4")]⟩, EKind.file)]⟩

/-- A concrete filesystem: absolute directory `/d` with two matching
files `/d/a.mp4` and `/d/b.mp4`. -/
def fsTwo : FS :=
  ⟨[(⟨true, [strL ("d")]⟩, EKind.dir),
    (⟨true, [strL ("d"), strL ("a.mp4")]⟩, EKind.file),
    (⟨true, [strL ("d"), strL ("b.mp4")]⟩, EKind.file)]⟩

/-- A Transform Operation that raises exactly on the file `/d/a.mp4`. -/
def opC7 : FileContext → Bool :=
  fun ctx => decide (¬ ctx.original_file = strL ("/d/a.mp4"))

/-- A file `f` is hit from directory `q` through one of the child names
`ns`: it is such a child itself, or (in a recursive run) lies strictly
below one. -/
def HitsFrom (recursive : Bool) (q : PathC) (ns : List Str) (f : PathC) : Prop :=
  f.abs = q.abs ∧ ∃ n ∈ ns, ∃ rest, f.comps = q.comps ++ n :: rest ∧
    (rest = [] ∨ recursive = true)

/-- A file `f` is hit from directory `q`: a direct child, or (in a
recursive run) any strict descendant. -/
def HitsUnder (recursive : Bool) (q f : PathC) : Prop :=
  f.abs = q.abs ∧ ∃ cs, cs ≠ [] ∧ f.comps = q.comps ++ cs ∧
    (cs.length = 1 ∨ recursive = true)

/-- The conclusions of the main traversal lemma for a call on directory
`q` over filesystem `g` producing outcome `R`: the filesystem only grows
by staging directories no deeper than the existing tree, well-formedness
and the depth bound are preserved, the invocation log contains exactly
the hit matching files (each once), and the visited directories are
distinct and all lie under `q`. -/
def GoConc (format : Str) (recursive : Bool) (R : TravOut) (q : PathC) (g : FS) : Prop :=
  (∃ new, R.fs.entries = g.entries ++ new ∧
     ∀ e ∈ new, e.2 = EKind.dir ∧ e.1.comps.length ≤ g.maxLen) ∧
  R.fs.WF ∧ R.fs.maxLen = g.maxLen ∧
  (∀ x ∈ R.log, ∃ f : PathC, (f, EKind.file) ∈ g.entries ∧ HitsUnder recursive q f ∧
     endsWithCI format (renderPath f) = true ∧ x = renderPath f) ∧
  (∀ f : PathC, (f, EKind.file) ∈ g.entries → HitsUnder recursive q f →
     endsWithCI format (renderPath f) = true → R.log.count (renderPath f) = 1) ∧
  ((R.visits.map parsePath).Nodup ∧
   ∀ x ∈ R.visits, (parsePath x).abs = q.abs ∧ q.comps <+: (parsePath x).comps)

/-- The statement proved about `traverse` at a given fuel, for every
absolute root directory on a well-formed filesystem deep enough for the
fuel. -/
def GoPred (op : FileContext → Bool) (format : Str) (recursive : Bool) (fuel : Nat) : Prop :=
  ∀ (s : Str) (g : FS), '.' ∈ format → '/' ∉ format →
    (parsePath s).abs = true → g.WF →
    g.kindOf (parsePath s) = some EKind.dir →
    g.maxLen + 1 ≤ fuel + (parsePath s).comps.length →
    GoConc format recursive (traverse op format recursive fuel s g) (parsePath s) g

/-- The loop-level analogue of `GoConc`, relative to the snapshot of
child names still to process. -/
def LoopConc (format : Str) (recursive : Bool) (R : TravOut) (q : PathC)
    (ns : List Str) (g : FS) : Prop :=
  (∃ new, R.fs.entries = g.entries ++ new ∧
     ∀ e ∈ new, e.2 = EKind.dir ∧ e.1.comps.length ≤ g.maxLen) ∧
  R.fs.WF ∧ R.fs.maxLen = g.maxLen ∧
  (∀ x ∈ R.log, ∃ f : PathC, (f, EKind.file) ∈ g.entries ∧ HitsFrom recursive q ns f ∧
     endsWithCI format (renderPath f) = true ∧ x = renderPath f) ∧
  (∀ f : PathC, (f, EKind.file) ∈ g.entries → HitsFrom recursive q ns f →
     endsWithCI format (renderPath f) = true → R.log.count (renderPath f) = 1) ∧
  ((R.visits.map parsePath).Nodup ∧
   ∀ x ∈ R.visits, (parsePath x).abs = q.abs ∧
     ∃ n ∈ ns, (q.comps ++ [n]) <+: (parsePath x).comps)

/-! ### Lemmas about the string-level path operations -/

theorem rsplit1_append (c : Char) (a b : Str) (hb : c ∉ b) :
    rsplit1 c (a ++ c :: b) = some (a, b) := by
  have hball : ∀ x ∈ b.reverse, (fun x => !decide (x = c)) x = true := by
    intro x hx
    have hxc : x ≠ c := fun h => hb (h ▸ List.mem_reverse.mp hx)
    simp [hxc]
  have hrev : (a ++ c :: b).reverse = b.reverse ++ c :: a.reverse := by
    simp
  simp only [rsplit1, decide_not, hrev]
  rw [List.dropWhile_append_of_pos hball, List.takeWhile_append_of_pos hball]
  simp [List.dropWhile_cons, List.takeWhile_cons]

theorem rsplit1_not_mem (c : Char) (s : Str) (h : c ∉ s) :
    rsplit1 c s = none := by
  have hnil : s.reverse.dropWhile (fun x => !decide (x = c)) = [] := by
    rw [List.dropWhile_eq_nil_iff]
    intro x hx
    have hxc : x ≠ c := fun hc => h (hc ▸ List.mem_reverse.mp hx)
    simp [hxc]
  simp only [rsplit1, decide_not, hnil]

theorem dropWhile_eq_cons_head_false {α : Type} (p : α → Bool) (l : List α)
    (x : α) (xs : List α) (h : l.dropWhile p = x :: xs) : p x = false := by
  induction l with
  | nil => exact absurd h (by simp)
  | cons a as ih =>
    rw [List.dropWhile_cons] at h
    by_cases hp : p a = true
    · rw [if_pos hp] at h
      exact ih h
    · rw [if_neg hp] at h
      cases h
      simpa using hp

theorem rsplit1_eq_some (c : Char) (s a b : Str) (h : rsplit1 c s = some (a, b)) :
    s = a ++ c :: b ∧ c ∉ b := by
  simp only [rsplit1, decide_not] at h
  rcases heq : s.reverse.dropWhile (fun x => !decide (x = c)) with _ | ⟨x, before⟩
  · rw [heq] at h
    exact absurd h (by simp)
  · rw [heq] at h
    simp only [Option.some.injEq, Prod.mk.injEq] at h
    obtain ⟨ha, hbdef⟩ := h
    have hx : x = c := by
      have hh := dropWhile_eq_cons_head_false _ _ _ _ heq
      simpa using hh
    rw [hx] at heq
    subst ha
    subst hbdef
    have hsplit : s.reverse.takeWhile (fun x => !decide (x = c)) ++ (c :: before) = s.reverse := by
      rw [← heq]
      exact List.takeWhile_append_dropWhile _ _
    constructor
    · apply List.reverse_injective
      simp only [List.reverse_append, List.reverse_cons, List.reverse_reverse, List.append_assoc]
      simpa using hsplit.symm
    · intro hc
      have hmem := List.mem_takeWhile_imp (List.mem_reverse.mp hc)
      simp at hmem

theorem splitSep_ne_nil (s : Str) : splitSep s ≠ [] := by
  induction s with
  | nil => simp [splitSep]
  | cons c cs ih =>
    rw [splitSep]
    by_cases hc : c = '/'
    · simp [hc]
    · rw [if_neg hc]
      rcases hg : splitSep cs with _ | ⟨g, gs⟩
      · simp
      · simp

theorem splitSep_cons_ne (c : Char) (cs : Str) (hc : ¬ c = '/') (g : Str)
    (gs : List Str) (hg : splitSep cs = g :: gs) :
    splitSep (c :: cs) = (c :: g) :: gs := by
  unfold splitSep
  rw [if_neg hc, hg]

theorem splitSep_cons_sep (cs : Str) : splitSep ('/' :: cs) = [] :: splitSep cs := by
  simp [splitSep]

theorem splitSep_append (a b : Str) :
    splitSep (a ++ '/' :: b) = splitSep a ++ splitSep b := by
  induction a with
  | nil => simp [splitSep_cons_sep, splitSep]
  | cons c cs ih =>
    by_cases hc : c = '/'
    · subst hc
      rw [List.cons_append, splitSep_cons_sep, splitSep_cons_sep, ih]
      simp
    · rcases hg : splitSep cs with _ | ⟨g, gs⟩
      · exact absurd hg (splitSep_ne_nil cs)
      · have h1 : splitSep (cs ++ '/' :: b) = g :: (gs ++ splitSep b) := by
          rw [ih, hg]
          simp
        rw [List.cons_append, splitSep_cons_ne c _ hc _ _ h1, splitSep_cons_ne c _ hc _ _ hg]
        simp

theorem splitSep_no_slash (s : Str) : ∀ g ∈ splitSep s, '/' ∉ g := by
  induction s with
  | nil =>
    intro g hg
    simp only [splitSep, List.mem_singleton] at hg
    simp [hg]
  | cons c cs ih =>
    by_cases hc : c = '/'
    · subst hc
      intro g hg
      rw [splitSep_cons_sep] at hg
      simp only [List.mem_cons] at hg
      rcases hg with hg | hg
      · simp [hg]
      · exact ih g hg
    · rcases hg : splitSep cs with _ | ⟨g, gs⟩
      · exact absurd hg (splitSep_ne_nil cs)
      · rw [splitSep_cons_ne c _ hc _ _ hg]
        intro x hx
        simp only [List.mem_cons] at hx
        rcases hx with hx | hx
        · subst hx
          intro hmem
          simp only [List.mem_cons] at hmem
          rcases hmem with h1 | h1
          · exact hc h1.symm
          · exact ih g (hg ▸ List.mem_cons_self g gs) h1
        · exact ih x (hg ▸ List.mem_cons_of_mem g hx)

theorem splitSep_of_no_slash (s : Str) (h : '/' ∉ s) : splitSep s = [s] := by
  induction s with
  | nil => simp [splitSep]
  | cons c cs ih =>
    have hc : ¬ c = '/' := fun hc => h (hc ▸ List.mem_cons_self c cs)
    have hcs : '/' ∉ cs := fun hm => h (List.mem_cons_of_mem c hm)
    exact splitSep_cons_ne c cs hc cs [] (ih hcs)

theorem interSep_cons (c : Str) (cs : List Str) (h : cs ≠ []) :
    interSep (c :: cs) = c ++ '/' :: interSep cs := by
  rcases cs with _ | ⟨d, ds⟩
  · exact absurd rfl h
  · rfl

theorem splitSep_interSep (cs : List Str) (h : ∀ x ∈ cs, '/' ∉ x) (hne : cs ≠ []) :
    splitSep (interSep cs) = cs := by
  induction cs with
  | nil => exact absurd rfl hne
  | cons c rest ih =>
    by_cases hrne : rest = []
    · subst hrne
      exact splitSep_of_no_slash c (h c (List.mem_cons_self c []))
    · rw [interSep_cons c rest hrne, splitSep_append,
          splitSep_of_no_slash c (h c (List.mem_cons_self c rest)),
          ih (fun x hx => h x (List.mem_cons_of_mem c hx)) hrne]
      simp

theorem filter_valid_keep (cs : List Str) (h : ∀ x ∈ cs, validName x) :
    cs.filter (fun c => ¬(c = [] ∨ c = ['.'])) = cs := by
  rw [List.filter_eq_self]
  intro x hx
  rcases h x hx with ⟨h1, _, h3⟩
  simp [h1, h3]

theorem interSep_head? (c : Str) (rest : List Str) (hc : c ≠ []) :
    (interSep (c :: rest)).head? = c.head? := by
  rcases rest with _ | ⟨d, ds⟩
  · rfl
  · rw [interSep_cons c _ (by simp)]
    rcases c with _ | ⟨x, xs⟩
    · exact absurd rfl hc
    · rfl

theorem parsePath_renderPath (ab : Bool) (cs : List Str) (h : ∀ x ∈ cs, validName x) :
    parsePath (renderPath ⟨ab, cs⟩) = ⟨ab, cs⟩ := by
  have hnoslash : ∀ x ∈ cs, '/' ∉ x := fun x hx => (h x hx).2.1
  rcases hcs : cs with _ | ⟨c, rest⟩
  · cases ab
    · decide
    · decide
  · subst hcs
    have hcvalid := h c (List.mem_cons_self c rest)
    have hchead : c.head? ≠ some '/' := by
      rcases hc : c with _ | ⟨x, xs⟩
      · exact absurd hc hcvalid.1
      · simp only [List.head?_cons]
        intro hx
        injection hx with hx2
        apply hcvalid.2.1
        rw [hc, ← hx2]
        exact List.mem_cons_self x xs
    cases ab
    · have hrender : renderPath ⟨false, c :: rest⟩ = interSep (c :: rest) := by
        simp [renderPath]
      rw [hrender]
      have habs : (interSep (c :: rest)).head? ≠ some '/' := by
        rw [interSep_head? c rest hcvalid.1]
        exact hchead
      simp only [parsePath, PathC.mk.injEq]
      constructor
      · simpa using habs
      · rw [splitSep_interSep _ hnoslash (by simp), filter_valid_keep _ h]
    · have hrender : renderPath ⟨true, c :: rest⟩ = '/' :: interSep (c :: rest) := by
        simp [renderPath]
      rw [hrender]
      simp only [parsePath, PathC.mk.injEq]
      constructor
      · simp
      · rw [splitSep_cons_sep, splitSep_interSep _ hnoslash (by simp),
            List.filter_cons_of_neg (by decide)]
        exact filter_valid_keep _ h

theorem parse_comps_valid (p : Str) : ∀ x ∈ (parsePath p).comps, validName x := by
  intro x hx
  simp only [parsePath] at hx
  have hmem := List.mem_of_mem_filter hx
  have hpred := List.of_mem_filter hx
  simp only [decide_not, Bool.not_eq_true', decide_eq_false_iff_not] at hpred
  push_neg at hpred
  exact ⟨hpred.1, splitSep_no_slash p x hmem, hpred.2⟩

theorem renderPath_abs_head (cs : List Str) :
    (renderPath ⟨true, cs⟩).head? = some '/' := by
  rcases cs with _ | ⟨c, rest⟩
  · rfl
  · rfl

theorem joinPath_abs (a b : Str) (hb : b.head? = some '/') : joinPath a b = b := by
  simp [joinPath, hb]

theorem joinPath_rel (a b : Str) (ha : a ≠ []) (ha2 : a.getLast? ≠ some '/')
    (hb : b.head? ≠ some '/') : joinPath a b = a ++ '/' :: b := by
  simp [joinPath, hb, ha, ha2]

theorem joinPath_sep_last (a b : Str) (ha : a ≠ []) (ha2 : a.getLast? = some '/')
    (hb : b.head? ≠ some '/') : joinPath a b = a ++ b := by
  simp [joinPath, hb, ha, ha2]

theorem childStr_head_abs (d n : Str) (hd : (parsePath d).abs = true) :
    (childStr d n).head? = some '/' := by
  rw [childStr, hd]
  exact renderPath_abs_head _

theorem joinPath_childStr_abs (d n : Str) (hd : (parsePath d).abs = true) :
    joinPath d (childStr d n) = childStr d n :=
  joinPath_abs _ _ (childStr_head_abs d n hd)

theorem parsePath_childStr (d n : Str) (hn : validName n) :
    parsePath (childStr d n) = ⟨(parsePath d).abs, (parsePath d).comps ++ [n]⟩ := by
  rw [childStr]
  apply parsePath_renderPath
  intro x hx
  rcases List.mem_append.mp hx with hx | hx
  · exact parse_comps_valid d x hx
  · rw [List.mem_singleton.mp hx]
    exact hn

theorem basename_append (A n : Str) (hn : '/' ∉ n) : basename (A ++ '/' :: n) = n := by
  rw [basename, rsplit1_append '/' A n hn]

theorem basename_no_slash (n : Str) (hn : '/' ∉ n) : basename n = n := by
  rw [basename, rsplit1_not_mem '/' n hn]

theorem rsplit1_eq_none (c : Char) (s : Str) (h : rsplit1 c s = none) : c ∉ s := by
  simp only [rsplit1, decide_not] at h
  rcases heq : s.reverse.dropWhile (fun x => !decide (x = c)) with _ | ⟨x, xs⟩
  · intro hc
    have hfalse := List.dropWhile_eq_nil_iff.mp heq c (List.mem_reverse.mpr hc)
    simp at hfalse
  · rw [heq] at h
    exact absurd h (by simp)

theorem basename_no_slash_mem (p : Str) : '/' ∉ basename p := by
  rw [basename]
  rcases hr : rsplit1 '/' p with _ | ⟨a, b⟩
  · exact rsplit1_eq_none '/' p hr
  · exact (rsplit1_eq_some '/' p a b hr).2

theorem rstripSep_append_last (A : Str) (x : Char) (xs : Str) (hrev : A.reverse = x :: xs)
    (hx : ¬ x = '/') : rstripSep (A ++ ['/']) = A := by
  rw [rstripSep, List.reverse_append]
  simp only [List.reverse_cons, List.reverse_nil, List.nil_append, List.singleton_append]
  rw [List.dropWhile_cons_of_pos (by simp), hrev, List.dropWhile_cons_of_neg (by simp [hx])]
  rw [← hrev, List.reverse_reverse]

theorem dirname_append (A n : Str) (hA : A ≠ []) (hA2 : A.getLast? ≠ some '/')
    (hn : '/' ∉ n) : dirname (A ++ '/' :: n) = A := by
  rw [dirname, rsplit1_append '/' A n hn]
  rcases hrev : A.reverse with _ | ⟨x, xs⟩
  · exact absurd (by simpa using congrArg List.reverse hrev) hA
  · have hx : ¬ x = '/' := by
      intro hx
      apply hA2
      rw [← List.head?_reverse, hrev, hx]
      rfl
    have hnotall : ¬ (A ++ ['/']).all (fun c => c = '/') = true := by
      intro hall
      have hxmem : x ∈ A ++ ['/'] := by
        apply List.mem_append_left
        rw [← List.reverse_reverse A, hrev]
        simp
      have := List.all_eq_true.mp hall x hxmem
      simp [hx] at this
    simp only [hnotall, if_false]
    exact rstripSep_append_last A x xs hrev hx

theorem dirname_root (n : Str) (hn : '/' ∉ n) : dirname ('/' :: n) = ['/'] := by
  have h0 : ('/' :: n : Str) = [] ++ '/' :: n := rfl
  rw [dirname, h0, rsplit1_append '/' [] n hn]
  simp

theorem head?_ne_slash (X : Str) (h : '/' ∉ X) : X.head? ≠ some '/' := by
  rcases X with _ | ⟨x, xs⟩
  · simp
  · simp only [List.head?_cons]
    intro hx
    injection hx with hx2
    exact h (hx2 ▸ List.mem_cons_self x xs)

theorem not_mem_append_cons {x : Char} (a : Str) (c : Char) (b : Str)
    (ha : x ∉ a) (hc : ¬ x = c) (hb : x ∉ b) : x ∉ a ++ c :: b := by
  intro hm
  rcases List.mem_append.mp hm with hm | hm
  · exact ha hm
  · rcases List.mem_cons.mp hm with hm | hm
    · exact hc hm
    · exact hb hm

theorem FileContext.init_eq (fs : FS) (A name fmt : Str)
    (hA : A ≠ []) (hA2 : A.getLast? ≠ some '/')
    (hname : '/' ∉ name) (hfmt : '/' ∉ fmt) (hdotfmt : '.' ∉ fmt) :
    FileContext.init fs (A ++ '/' :: (name ++ '.' :: fmt)) =
      (let compressed_dir := A ++ '/' :: compressedName
       let step :=
         if fs.exists_ compressed_dir then (true, fs)
         else fs.mkdirAll (parsePath compressed_dir)
       if step.1 then
         (some { original_file := A ++ '/' :: (name ++ '.' :: fmt)
                 temp_file := compressed_dir ++ '/' :: (name ++ tempMarker ++ fmt)
                 final_file := compressed_dir ++ '/' :: (name ++ '.' :: fmt)
                 original_file_name :=
                   FileContext.convert_file_name (A ++ '/' :: (name ++ '.' :: fmt))
                 temp_file_name :=
                   FileContext.convert_file_name
                     (compressed_dir ++ '/' :: (name ++ tempMarker ++ fmt)) }, step.2)
       else (none, step.2)) := by
  have hno_n : '/' ∉ (name ++ '.' :: fmt) :=
    not_mem_append_cons name '.' fmt hname (by decide) hfmt
  have hcd_ne : (A ++ '/' :: compressedName : Str) ≠ [] := by simp
  have hcd_last : (A ++ '/' :: compressedName : Str).getLast? ≠ some '/' := by
    rw [List.getLast?_append]
    have h1 : ('/' :: compressedName : Str).getLast? = some 'd' := by decide
    rw [h1]
    intro hcontra
    rw [Option.or] at hcontra
    exact absurd hcontra (by decide)
  have htm : '/' ∉ (name ++ tempMarker ++ fmt) := by
    intro hm
    rcases List.mem_append.mp hm with hm | hm
    · rcases List.mem_append.mp hm with hm | hm
      · exact hname hm
      · revert hm
        decide
    · exact hfmt hm
  simp only [FileContext.init, dirname_append A _ hA hA2 hno_n, basename_append A _ hno_n,
             rsplit1_append '.' name fmt hdotfmt,
             joinPath_rel A compressedName hA hA2 (by decide),
             joinPath_rel _ _ hcd_ne hcd_last (head?_ne_slash _ htm),
             joinPath_rel _ _ hcd_ne hcd_last (head?_ne_slash _ hno_n)]

theorem parsePath_append_name (A n : Str) (hA : A ≠ []) (hn : validName n) :
    parsePath (A ++ '/' :: n) = ⟨(parsePath A).abs, (parsePath A).comps ++ [n]⟩ := by
  simp only [parsePath, PathC.mk.injEq]
  constructor
  · rcases A with _ | ⟨a, as⟩
    · exact absurd rfl hA
    · rfl
  · rw [splitSep_append, splitSep_of_no_slash n hn.2.1, List.filter_append]
    congr 1
    rw [List.filter_cons_of_pos (by simp [hn.1, hn.2.2]), List.filter_nil]

theorem FS.kindOf_mono (fs : FS) (new : List (PathC × EKind)) (p : PathC) (k : EKind)
    (h : fs.kindOf p = some k) :
    (FS.mk (fs.entries ++ new)).kindOf p = some k := by
  simp only [FS.kindOf] at h ⊢
  rw [List.find?_append]
  rcases hf : fs.entries.find? (fun e => e.1 = p) with _ | e
  · rw [hf] at h
    exact absurd h (by simp)
  · rw [hf] at h
    rw [hf]
    exact h

theorem FS.kindOf_append_single_self (fs : FS) (p : PathC) (k : EKind)
    (h : fs.kindOf p = none) :
    (FS.mk (fs.entries ++ [(p, k)])).kindOf p = some k := by
  simp only [FS.kindOf] at h ⊢
  rw [List.find?_append]
  rcases hf : fs.entries.find? (fun e => e.1 = p) with _ | e
  · rw [hf, Option.none_or, List.find?_cons_of_pos _ (by simp)]
    rfl
  · rw [hf] at h
    exact absurd h (by simp)

theorem FS.kindOf_append_single_other (fs : FS) (p q : PathC) (k : EKind)
    (h : ¬ q = p) :
    (FS.mk (fs.entries ++ [(p, k)])).kindOf q = fs.kindOf q := by
  simp only [FS.kindOf]
  rw [List.find?_append]
  have hnone : (List.find? (fun e => decide (e.1 = q)) [(p, k)]) = none := by
    apply List.find?_cons_of_neg
    simp only [decide_eq_true_eq]
    exact fun hc => h hc.symm
  rw [hnone, Option.or_none]

theorem FS.mkdirsAux_shape (ab : Bool) (rest : List Str) : ∀ (fs : FS) (done : List Str),
    ∃ new, (FS.mkdirsAux ab fs done rest).2.entries = fs.entries ++ new ∧
      ∀ e ∈ new, e.2 = EKind.dir ∧
        ∃ k, 0 < k ∧ k ≤ rest.length ∧ e.1 = ⟨ab, done ++ rest.take k⟩ := by
  induction rest with
  | nil =>
    intro fs done
    exact ⟨[], by simp [FS.mkdirsAux], by simp⟩
  | cons c rs ih =>
    intro fs done
    rcases hk : fs.kindOf ⟨ab, done ++ [c]⟩ with _ | k
    · obtain ⟨new, hnew, hprop⟩ := ih ⟨fs.entries ++ [(⟨ab, done ++ [c]⟩, EKind.dir)]⟩ (done ++ [c])
      refine ⟨(⟨ab, done ++ [c]⟩, EKind.dir) :: new, ?_, ?_⟩
      · simp only [FS.mkdirsAux, hk]
        rw [hnew]
        simp
      · intro e he
        rcases List.mem_cons.mp he with he | he
        · subst he
          refine ⟨rfl, 1, by simp⟩
        · obtain ⟨hdir, k, hk0, hkle, hshape⟩ := hprop e he
          refine ⟨hdir, k + 1, by omega, by simpa using hkle, ?_⟩
          rw [hshape]
          simp [List.take_succ_cons]
    · cases k
      · refine ⟨[], ?_, by simp⟩
        simp only [FS.mkdirsAux, hk]
        simp
      · obtain ⟨new, hnew, hprop⟩ := ih fs (done ++ [c])
        refine ⟨new, ?_, ?_⟩
        · simp only [FS.mkdirsAux, hk]
          exact hnew
        · intro e he
          obtain ⟨hdir, k, hk0, hkle, hshape⟩ := hprop e he
          refine ⟨hdir, k + 1, by omega, by simpa using hkle, ?_⟩
          rw [hshape]
          simp [List.take_succ_cons]

theorem FS.mkdirsAux_ok (ab : Bool) (rest : List Str) : ∀ (fs : FS) (done : List Str),
    (∀ k, 0 < k → k ≤ rest.length → fs.kindOf ⟨ab, done ++ rest.take k⟩ ≠ some EKind.file) →
    (FS.mkdirsAux ab fs done rest).1 = true := by
  induction rest with
  | nil =>
    intro fs done _
    simp [FS.mkdirsAux]
  | cons c rs ih =>
    intro fs done hfs
    rcases hk : fs.kindOf ⟨ab, done ++ [c]⟩ with _ | k
    · simp only [FS.mkdirsAux, hk]
      apply ih
      intro k hk0 hkle
      by_cases heq : (⟨ab, (done ++ [c]) ++ rs.take k⟩ : PathC) = ⟨ab, done ++ [c]⟩
      · rw [heq, FS.kindOf_append_single_self fs _ EKind.dir hk]
        simp
      · rw [FS.kindOf_append_single_other fs _ _ EKind.dir heq]
        have := hfs (k + 1) (by omega) (by simpa using hkle)
        rw [List.take_succ_cons] at this
        simpa using this
    · cases k
      · exact absurd hk (by simpa using hfs 1 (by omega) (by simp))
      · simp only [FS.mkdirsAux, hk]
        apply ih
        intro k hk0 hkle
        have := hfs (k + 1) (by omega) (by simpa using hkle)
        rw [List.take_succ_cons] at this
        simpa using this

theorem FS.mkdirsAux_dirs (ab : Bool) (rest : List Str) : ∀ (fs : FS) (done : List Str),
    (FS.mkdirsAux ab fs done rest).1 = true →
    ∀ k, 0 < k → k ≤ rest.length →
      (FS.mkdirsAux ab fs done rest).2.kindOf ⟨ab, done ++ rest.take k⟩ = some EKind.dir := by
  induction rest with
  | nil =>
    intro fs done _ k hk0 hkle
    simp at hkle
    omega
  | cons c rs ih =>
    intro fs done hok k hk0 hkle
    rcases hk : fs.kindOf ⟨ab, done ++ [c]⟩ with _ | kk
    · simp only [FS.mkdirsAux, hk] at hok ⊢
      by_cases hk1 : k = 1
      · subst hk1
        have htake : List.take 1 (c :: rs) = [c] := rfl
        rw [htake]
        have hself := FS.kindOf_append_single_self fs _ EKind.dir hk
        obtain ⟨new, hnew, _⟩ := FS.mkdirsAux_shape ab rs
          ⟨fs.entries ++ [(⟨ab, done ++ [c]⟩, EKind.dir)]⟩ (done ++ [c])
        have := FS.kindOf_mono ⟨fs.entries ++ [(⟨ab, done ++ [c]⟩, EKind.dir)]⟩ new _ _ hself
        rw [← hnew] at this
        simpa using this
      · have hkk : k - 1 + 1 = k := by omega
        have := ih ⟨fs.entries ++ [(⟨ab, done ++ [c]⟩, EKind.dir)]⟩ (done ++ [c]) hok
          (k - 1) (by omega) (by simp at hkle; omega)
        rw [← hkk, List.take_succ_cons]
        simpa using this
    · cases kk
      · simp only [FS.mkdirsAux, hk] at hok
        exact absurd hok (by simp)
      · simp only [FS.mkdirsAux, hk] at hok ⊢
        by_cases hk1 : k = 1
        · subst hk1
          have htake : List.take 1 (c :: rs) = [c] := rfl
          rw [htake]
          obtain ⟨new, hnew, _⟩ := FS.mkdirsAux_shape ab rs fs (done ++ [c])
          have := FS.kindOf_mono fs new _ _ hk
          rw [← hnew] at this
          simpa using this
        · have hkk : k - 1 + 1 = k := by omega
          have := ih fs (done ++ [c]) hok (k - 1) (by omega) (by simp at hkle; omega)
          rw [← hkk, List.take_succ_cons]
          simpa using this

theorem FileContext.init_shape (fs : FS) (p : Str) :
    ∃ new, ((FileContext.init fs p).2).entries = fs.entries ++ new ∧
      ∀ e ∈ new, e.2 = EKind.dir ∧
        ∃ k, 0 < k ∧ k ≤ (parsePath (joinPath (dirname p) compressedName)).comps.length ∧
          e.1 = ⟨(parsePath (joinPath (dirname p) compressedName)).abs,
                 (parsePath (joinPath (dirname p) compressedName)).comps.take k⟩ := by
  simp only [FileContext.init]
  rcases hr : rsplit1 '.' (basename p) with _ | ⟨nm, fm⟩
  · exact ⟨[], by simp, by simp⟩
  · by_cases hex : fs.exists_ (joinPath (dirname p) compressedName) = true
    · refine ⟨[], ?_, by simp⟩
      simp only [hex, if_pos]
      simp
    · obtain ⟨new, hnew, hprop⟩ :=
        FS.mkdirsAux_shape (parsePath (joinPath (dirname p) compressedName)).abs
          (parsePath (joinPath (dirname p) compressedName)).comps fs []
      refine ⟨new, ?_, ?_⟩
      · simp only [hex, if_neg, Bool.false_eq_true, not_false_eq_true, if_false]
        rw [← hnew]
        simp only [FS.mkdirAll]
        split <;> rfl
      · intro e he
        obtain ⟨hdir, k, hk0, hkle, hshape⟩ := hprop e he
        exact ⟨hdir, k, hk0, hkle, by simpa using hshape⟩

/-- Claim C4: constructing a File Transaction for a path `<dir>/clip.MOV`
sets the staging path to `<dir>/compressed/clip-temp.MOV` and the final
path to `<dir>/compressed/clip.MOV`, and the directory `<dir>/compressed`
exists after construction returns.  (`<dir>` is any nonempty directory
string without a trailing slash, on a filesystem where no entry on the
path down to `<dir>/compressed` is a regular file.) -/
theorem claimC4 (fs : FS) (d : Str) (hd1 : d ≠ []) (hd2 : d.getLast? ≠ some '/')
    (hpref : ∀ k, k ≤ (parsePath (d ++ '/' :: compressedName)).comps.length → 0 < k →
      fs.kindOf ⟨(parsePath (d ++ '/' :: compressedName)).abs,
        (parsePath (d ++ '/' :: compressedName)).comps.take k⟩ ≠ some EKind.file) :
    ∃ ctx fs', FileContext.init fs (d ++ strL ("/clip.MOV")) = (some ctx, fs') ∧
      ctx.temp_file = d ++ strL ("/compressed/clip-temp.MOV") ∧
      ctx.final_file = d ++ strL ("/compressed/clip.MOV") ∧
      fs'.isdir (d ++ strL ("/compressed")) = true := by
  have hsplit : (strL ("/clip.MOV") : Str) = '/' :: (strL ("clip") ++ '.' :: strL ("MOV")) := by
    decide
  have htemp : (('/' :: compressedName) ++ '/' :: (strL ("clip") ++ tempMarker ++ strL ("MOV")) : Str)
      = strL ("/compressed/clip-temp.MOV") := by decide
  have hfinal : (('/' :: compressedName) ++ '/' :: (strL ("clip") ++ '.' :: strL ("MOV")) : Str)
      = strL ("/compressed/clip.MOV") := by decide
  have hcdstr : (strL ("/compressed") : Str) = '/' :: compressedName := by decide
  rw [hsplit, FileContext.init_eq fs d (strL ("clip")) (strL ("MOV")) hd1 hd2
    (by decide) (by decide) (by decide)]
  have hfull : (⟨(parsePath (d ++ '/' :: compressedName)).abs,
      (parsePath (d ++ '/' :: compressedName)).comps.take
        (parsePath (d ++ '/' :: compressedName)).comps.length⟩ : PathC)
      = parsePath (d ++ '/' :: compressedName) := by
    rw [List.take_length]
  by_cases hex : fs.exists_ (d ++ '/' :: compressedName) = true
  · simp only [hex, if_pos, if_true]
    refine ⟨_, fs, rfl, ?_, ?_, ?_⟩
    · dsimp only
      rw [List.append_assoc, htemp]
    · dsimp only
      rw [List.append_assoc, hfinal]
    · rw [FS.isdir, hcdstr]
      have hks : (fs.kindOf (parsePath (d ++ '/' :: compressedName))).isSome := hex
      rcases hk : fs.kindOf (parsePath (d ++ '/' :: compressedName)) with _ | k
      · rw [hk] at hks
        exact absurd hks (by simp)
      · cases k
        · have := hpref (parsePath (d ++ '/' :: compressedName)).comps.length
            (le_refl _)
            (by
              have : (parsePath (d ++ '/' :: compressedName)).comps ≠ [] := by
                rw [parsePath_append_name d compressedName hd1 (by decide)]
                simp
              rcases hcomps : (parsePath (d ++ '/' :: compressedName)).comps with _ | x
              · exact absurd hcomps this
              · simp)
          rw [hfull] at this
          exact absurd hk this
        · simp [hk]
  · simp only [Bool.not_eq_true] at hex
    simp only [hex, Bool.false_eq_true, if_false]
    have hok : (fs.mkdirAll (parsePath (d ++ '/' :: compressedName))).1 = true := by
      rw [FS.mkdirAll]
      apply FS.mkdirsAux_ok
      intro k hk0 hkle
      simpa using hpref k hkle hk0
    simp only [FS.mkdirAll] at hok ⊢
    simp only [hok, if_true]
    refine ⟨_, _, rfl, ?_, ?_, ?_⟩
    · dsimp only
      rw [List.append_assoc, htemp]
    · dsimp only
      rw [List.append_assoc, hfinal]
    · rw [FS.isdir, hcdstr]
      have hlen : 0 < (parsePath (d ++ '/' :: compressedName)).comps.length := by
        rw [parsePath_append_name d compressedName hd1 (by decide)]
        simp
      have := FS.mkdirsAux_dirs (parsePath (d ++ '/' :: compressedName)).abs
        (parsePath (d ++ '/' :: compressedName)).comps fs [] hok
        (parsePath (d ++ '/' :: compressedName)).comps.length hlen (le_refl _)
      rw [List.nil_append] at this
      rw [hfull] at this
      simpa using this

/-- Witness for C4: the concrete directory `/d` on `fsClip`. -/
theorem claimC4_witness :
    ((strL ("/d") : Str) ≠ [] ∧ (strL ("/d") : Str).getLast? ≠ some '/' ∧
      (∀ k, k ≤ (parsePath (strL ("/d") ++ '/' :: compressedName)).comps.length → 0 < k →
        fsClip.kindOf ⟨(parsePath (strL ("/d") ++ '/' :: compressedName)).abs,
          (parsePath (strL ("/d") ++ '/' :: compressedName)).comps.take k⟩ ≠ some EKind.file)) ∧
    (∃ ctx fs', FileContext.init fsClip (strL ("/d") ++ strL ("/clip.MOV")) = (some ctx, fs') ∧
      ctx.temp_file = strL ("/d") ++ strL ("/compressed/clip-temp.MOV") ∧
      ctx.final_file = strL ("/d") ++ strL ("/compressed/clip.MOV") ∧
      fs'.isdir (strL ("/d") ++ strL ("/compressed")) = true) :=
  ⟨⟨by decide, by decide, by decide⟩,
    claimC4 fsClip (strL ("/d")) (by decide) (by decide) (by decide)⟩

theorem getLast?_append_of_ne_nil (A B : Str) (hB : B ≠ []) :
    (A ++ B).getLast? = B.getLast? := by
  rw [List.getLast?_append]
  rcases hB' : B.getLast? with _ | x
  · exact absurd (List.getLast?_eq_none_iff.mp hB') hB
  · rfl

/-- Claim C5: on a File Transaction constructed from `<dir>/clip.MOV`,
`set_format "mp4"` changes the staging path to
`<dir>/compressed/clip-temp.mp4` (base name and `-temp` marker preserved,
escaped form recomputed) and the final path to
`<dir>/compressed/clip.mp4` (original base name preserved). -/
theorem claimC5 (fs : FS) (d : Str) (hd1 : d ≠ []) (hd2 : d.getLast? ≠ some '/')
    (ctx : FileContext) (fs' : FS)
    (hinit : FileContext.init fs (d ++ strL ("/clip.MOV")) = (some ctx, fs')) :
    (ctx.set_format (strL ("mp4"))).temp_file = d ++ strL ("/compressed/clip-temp.mp4") ∧
    (ctx.set_format (strL ("mp4"))).final_file = d ++ strL ("/compressed/clip.mp4") ∧
    (ctx.set_format (strL ("mp4"))).temp_file_name =
      FileContext.convert_file_name ((ctx.set_format (strL ("mp4"))).temp_file) := by
  have hsplit : (strL ("/clip.MOV") : Str) = '/' :: (strL ("clip") ++ '.' :: strL ("MOV")) := by
    decide
  rw [hsplit, FileContext.init_eq fs d (strL ("clip")) (strL ("MOV")) hd1 hd2
    (by decide) (by decide) (by decide)] at hinit
  have hctx : ctx =
      { original_file := d ++ '/' :: (strL ("clip") ++ '.' :: strL ("MOV"))
        temp_file := (d ++ '/' :: compressedName) ++ '/' :: (strL ("clip") ++ tempMarker ++ strL ("MOV"))
        final_file := (d ++ '/' :: compressedName) ++ '/' :: (strL ("clip") ++ '.' :: strL ("MOV"))
        original_file_name :=
          FileContext.convert_file_name (d ++ '/' :: (strL ("clip") ++ '.' :: strL ("MOV")))
        temp_file_name :=
          FileContext.convert_file_name
            ((d ++ '/' :: compressedName) ++ '/' :: (strL ("clip") ++ tempMarker ++ strL ("MOV"))) } := by
    by_cases hex : fs.exists_ (d ++ '/' :: compressedName) = true
    · simp only [hex, if_true] at hinit
      rw [Prod.mk.injEq] at hinit
      obtain ⟨h1, _⟩ := hinit
      injection h1 with h1
      exact h1.symm
    · simp only [Bool.not_eq_true] at hex
      simp only [hex, Bool.false_eq_true, if_false] at hinit
      rcases hok : (fs.mkdirAll (parsePath (d ++ '/' :: compressedName))).1 with _ | _
      · simp only [hok, Bool.false_eq_true, if_false] at hinit
        rw [Prod.mk.injEq] at hinit
        exact absurd hinit.1 (by simp)
      · simp only [hok, if_true] at hinit
        rw [Prod.mk.injEq] at hinit
        obtain ⟨h1, _⟩ := hinit
        injection h1 with h1
        exact h1.symm
  have hA : (d ++ '/' :: compressedName : Str) ≠ [] := by simp
  have hA2 : (d ++ '/' :: compressedName : Str).getLast? ≠ some '/' := by
    rw [getLast?_append_of_ne_nil _ _ (by simp)]
    decide
  have htempname : (strL ("clip") ++ tempMarker ++ strL ("MOV") : Str)
      = strL ("clip-temp") ++ '.' :: strL ("MOV") := by decide
  have hbase_temp : basename ctx.temp_file = strL ("clip-temp") ++ '.' :: strL ("MOV") := by
    rw [hctx]
    dsimp only
    rw [htempname, basename_append _ _ (by decide)]
  have hdir_temp : dirname ctx.temp_file = d ++ '/' :: compressedName := by
    rw [hctx]
    dsimp only
    rw [htempname, dirname_append _ _ hA hA2 (by decide)]
  have hbase_orig : basename ctx.original_file = strL ("clip") ++ '.' :: strL ("MOV") := by
    rw [hctx]
    dsimp only
    rw [basename_append _ _ (by decide)]
  simp only [FileContext.set_format, hbase_temp, hdir_temp, hbase_orig,
    rsplitHead, rsplit1_append '.' (strL ("clip-temp")) (strL ("MOV")) (by decide),
    rsplit1_append '.' (strL ("clip")) (strL ("MOV")) (by decide)]
  rw [joinPath_rel _ _ hA hA2 (by decide), joinPath_rel _ _ hA hA2 (by decide)]
  have hx1 : ('/' :: compressedName ++ '/' :: (strL ("clip-temp") ++ '.' :: strL ("mp4")) : Str)
      = strL ("/compressed/clip-temp.mp4") := by decide
  have hx2 : ('/' :: compressedName ++ '/' :: (strL ("clip") ++ '.' :: strL ("mp4")) : Str)
      = strL ("/compressed/clip.mp4") := by decide
  refine ⟨?_, ?_, trivial⟩
  · rw [List.append_assoc, hx1]
  · rw [List.append_assoc, hx2]

/-- Witness for C5: the transaction built for `/d/clip.MOV` on `fsClip`,
reformatted to `mp4`. -/
theorem claimC5_witness :
    ((strL ("/d") : Str) ≠ [] ∧ (strL ("/d") : Str).getLast? ≠ some '/' ∧
      FileContext.init fsClip (strL ("/d") ++ strL ("/clip.MOV")) = (some ctxClip, fsClipAfter)) ∧
    ((ctxClip.set_format (strL ("mp4"))).temp_file = strL ("/d") ++ strL ("/compressed/clip-temp.mp4") ∧
      (ctxClip.set_format (strL ("mp4"))).final_file = strL ("/d") ++ strL ("/compressed/clip.mp4") ∧
      (ctxClip.set_format (strL ("mp4"))).temp_file_name =
        FileContext.convert_file_name ((ctxClip.set_format (strL ("mp4"))).temp_file)) :=
  ⟨⟨by decide, by decide, by decide⟩,
    claimC5 fsClip (strL ("/d")) (by decide) (by decide) ctxClip fsClipAfter (by decide)⟩

theorem takeWhile_append_stop {α : Type} (p : α → Bool) (A : List α) (x : α)
    (B : List α) (hx : p x = false) :
    (A ++ x :: B).takeWhile p = A.takeWhile p := by
  induction A with
  | nil => simp [List.takeWhile_cons, hx]
  | cons a as ih =>
    rw [List.cons_append, List.takeWhile_cons, List.takeWhile_cons]
    cases hpa : p a
    · rfl
    · rw [ih]

theorem rsplit1_snd_of_marker (c : Char) (X Y : Str) :
    ∃ a, rsplit1 c (X ++ c :: Y) = some (a, (Y.reverse.takeWhile (fun x => !decide (x = c))).reverse) := by
  simp only [rsplit1, decide_not]
  have hrev : (X ++ c :: Y).reverse = Y.reverse ++ c :: X.reverse := by simp
  rw [hrev, takeWhile_append_stop _ _ c _ (by simp)]
  rcases hd : (Y.reverse ++ c :: X.reverse).dropWhile (fun x => !decide (x = c)) with _ | ⟨z, zs⟩
  · have := List.dropWhile_eq_nil_iff.mp hd c (by simp)
    simp at this
  · exact ⟨zs.reverse, rfl⟩

theorem extAfter_marker (cd X Y : Str) (hcd1 : cd ≠ []) (hcd2 : cd.getLast? ≠ some '/')
    (hX : '/' ∉ X) (hY : '/' ∉ Y) :
    extAfter (cd ++ '/' :: (X ++ '.' :: Y))
      = some ((Y.reverse.takeWhile (fun x => !decide (x = '.'))).reverse) := by
  have hin : '/' ∉ (X ++ '.' :: Y) := not_mem_append_cons X '.' Y hX (by decide) hY
  rw [extAfter, basename_append _ _ hin]
  obtain ⟨a, ha⟩ := rsplit1_snd_of_marker '.' X Y
  rw [ha]
  rfl

theorem dirname_paired (cd X Y : Str) (hcd1 : cd ≠ []) (hcd2 : cd.getLast? ≠ some '/')
    (hX : '/' ∉ X) (hY : '/' ∉ Y) :
    dirname (cd ++ '/' :: (X ++ '.' :: Y)) = cd :=
  dirname_append cd _ hcd1 hcd2 (not_mem_append_cons X '.' Y hX (by decide) hY)

theorem rsplitHead_no_slash (c : Char) (s : Str) (hs : '/' ∉ s) :
    '/' ∉ rsplitHead c s := by
  rw [rsplitHead]
  rcases hr : rsplit1 c s with _ | ⟨a, b⟩
  · exact hs
  · obtain ⟨hdecomp, _⟩ := rsplit1_eq_some c s a b hr
    intro hmem
    exact hs (hdecomp ▸ List.mem_append_left _ hmem)

theorem joinPath_compressed (A : Str) :
    joinPath A compressedName ≠ [] ∧
    (joinPath A compressedName).getLast? = some 'd' := by
  rw [joinPath]
  have h1 : (compressedName.head? = some '/') = False := by
    simp [compressedName, strL]
  rw [if_neg (by simp [compressedName, strL])]
  by_cases hA : A = []
  · rw [if_pos hA]
    exact ⟨by decide, by decide⟩
  · rw [if_neg hA]
    by_cases hA2 : A.getLast? = some '/'
    · rw [if_pos hA2]
      refine ⟨by simp [compressedName, strL], ?_⟩
      rw [getLast?_append_of_ne_nil _ _ (by decide)]
      decide
    · rw [if_neg hA2]
      refine ⟨by simp, ?_⟩
      rw [getLast?_append_of_ne_nil _ _ (by simp)]
      decide

theorem FileContext.init_some (fs : FS) (p : Str) (ctx : FileContext) (fs' : FS)
    (h : FileContext.init fs p = (some ctx, fs')) :
    ∃ nm fm, rsplit1 '.' (basename p) = some (nm, fm) ∧
      ctx = { original_file := p
              temp_file := joinPath (joinPath (dirname p) compressedName) (nm ++ tempMarker ++ fm)
              final_file := joinPath (joinPath (dirname p) compressedName) (basename p)
              original_file_name := FileContext.convert_file_name p
              temp_file_name := FileContext.convert_file_name
                (joinPath (joinPath (dirname p) compressedName) (nm ++ tempMarker ++ fm)) } := by
  simp only [FileContext.init] at h
  rcases hr : rsplit1 '.' (basename p) with _ | ⟨nm, fm⟩
  · rw [hr] at h
    rw [Prod.mk.injEq] at h
    exact absurd h.1 (by simp)
  · rw [hr] at h
    refine ⟨nm, fm, rfl, ?_⟩
    by_cases hex : fs.exists_ (joinPath (dirname p) compressedName) = true
    · simp only [hex, if_true] at h
      rw [Prod.mk.injEq] at h
      obtain ⟨h1, _⟩ := h
      injection h1 with h1
      exact h1.symm
    · simp only [Bool.not_eq_true] at hex
      simp only [hex, Bool.false_eq_true, if_false] at h
      rcases hok : (fs.mkdirAll (parsePath (joinPath (dirname p) compressedName))).1 with _ | _
      · simp only [hok, Bool.false_eq_true, if_false] at h
        rw [Prod.mk.injEq] at h
        exact absurd h.1 (by simp)
      · simp only [hok, if_true] at h
        rw [Prod.mk.injEq] at h
        obtain ⟨h1, _⟩ := h
        injection h1 with h1
        exact h1.symm

theorem tempMarker_split : tempMarker = strL ("-temp") ++ ['.'] := by decide

theorem FileContext.init_paired (fs : FS) (p : Str) (ctx : FileContext) (fs' : FS)
    (h : FileContext.init fs p = (some ctx, fs')) : Paired ctx := by
  obtain ⟨nm, fm, hr, hctx⟩ := FileContext.init_some fs p ctx fs' h
  obtain ⟨hdecomp, hdot⟩ := rsplit1_eq_some '.' (basename p) nm fm hr
  have hnm : '/' ∉ nm := fun hm =>
    basename_no_slash_mem p (hdecomp ▸ List.mem_append_left _ hm)
  have hfm : '/' ∉ fm := fun hm =>
    basename_no_slash_mem p (hdecomp ▸ List.mem_append_right _ (List.mem_cons_of_mem '.' hm))
  obtain ⟨hcd1, hcd2⟩ := joinPath_compressed (dirname p)
  have htn : '/' ∉ (nm ++ strL ("-temp") : Str) := by
    intro hm
    rcases List.mem_append.mp hm with hm | hm
    · exact hnm hm
    · revert hm
      decide
  have hmarker : (nm ++ tempMarker ++ fm : Str) = (nm ++ strL ("-temp")) ++ '.' :: fm := by
    rw [tempMarker_split]
    simp [List.append_assoc]
  have hcd2' : (joinPath (dirname p) compressedName).getLast? ≠ some '/' := by
    rw [hcd2]
    decide
  refine ⟨joinPath (dirname p) compressedName, nm ++ strL ("-temp"), nm, fm,
    hcd1, hcd2', htn, hnm, hfm, ?_, ?_⟩
  · rw [hctx]
    dsimp only
    rw [hmarker, joinPath_rel _ _ hcd1 hcd2'
      (head?_ne_slash _ (not_mem_append_cons _ '.' _ htn (by decide) hfm))]
  · rw [hctx]
    dsimp only
    rw [hdecomp, joinPath_rel _ _ hcd1 hcd2'
      (head?_ne_slash _ (not_mem_append_cons _ '.' _ hnm (by decide) hfm))]

theorem FileContext.set_format_paired (ctx : FileContext) (f : Str) (hf : '/' ∉ f)
    (hp : Paired ctx) : Paired (ctx.set_format f) := by
  obtain ⟨cd, tn, fn, ex, hcd1, hcd2, htn, hfn, hex, htemp, hfinal⟩ := hp
  have hinner : '/' ∉ (tn ++ '.' :: ex) := not_mem_append_cons tn '.' ex htn (by decide) hex
  have hbase : basename ctx.temp_file = tn ++ '.' :: ex := by
    rw [htemp]
    exact basename_append _ _ hinner
  have hdir : dirname ctx.temp_file = cd := by
    rw [htemp]
    exact dirname_append _ _ hcd1 hcd2 hinner
  have htn' : '/' ∉ rsplitHead '.' (basename ctx.temp_file) := by
    rw [hbase]
    exact rsplitHead_no_slash '.' _ hinner
  have hfn' : '/' ∉ rsplitHead '.' (basename ctx.original_file) :=
    rsplitHead_no_slash '.' _ (basename_no_slash_mem _)
  refine ⟨cd, rsplitHead '.' (basename ctx.temp_file),
    rsplitHead '.' (basename ctx.original_file), f, hcd1, hcd2, htn', hfn', hf, ?_, ?_⟩
  · simp only [FileContext.set_format]
    rw [hdir, joinPath_rel _ _ hcd1 hcd2
      (head?_ne_slash _ (not_mem_append_cons _ '.' _ htn' (by decide) hf))]
  · simp only [FileContext.set_format]
    rw [hdir, joinPath_rel _ _ hcd1 hcd2
      (head?_ne_slash _ (not_mem_append_cons _ '.' _ hfn' (by decide) hf))]

theorem paired_conclusions (ctx : FileContext) (hp : Paired ctx) :
    dirname ctx.temp_file = dirname ctx.final_file ∧
    extAfter ctx.temp_file = extAfter ctx.final_file := by
  obtain ⟨cd, tn, fn, ex, hcd1, hcd2, htn, hfn, hex, htemp, hfinal⟩ := hp
  constructor
  · rw [htemp, hfinal, dirname_paired _ _ _ hcd1 hcd2 htn hex,
        dirname_paired _ _ _ hcd1 hcd2 hfn hex]
  · rw [htemp, hfinal, extAfter_marker _ _ _ hcd1 hcd2 htn hex,
        extAfter_marker _ _ _ hcd1 hcd2 hfn hex]

theorem foldl_set_format_paired (fmts : List Str) : ∀ ctx : FileContext,
    (∀ f ∈ fmts, '/' ∉ f) → Paired ctx →
    Paired (fmts.foldl FileContext.set_format ctx) := by
  induction fmts with
  | nil =>
    intro ctx _ h
    exact h
  | cons f rest ih =>
    intro ctx hfs h
    exact ih _ (fun x hx => hfs x (List.mem_cons_of_mem f hx))
      (FileContext.set_format_paired ctx f (hfs f (List.mem_cons_self f rest)) h)

/-- Claim C6: for every File Transaction built by construction, the
staging and final paths share the same parent directory, and this
pairing — same parent directory, matching base-name extensions — is
preserved by every sequence of `set_format` calls (formats being
extension strings, i.e. slash-free). -/
theorem claimC6 (fs : FS) (p : Str) (ctx : FileContext) (fs' : FS)
    (hinit : FileContext.init fs p = (some ctx, fs'))
    (fmts : List Str) (hfmts : ∀ f ∈ fmts, '/' ∉ f) :
    dirname ((fmts.foldl FileContext.set_format ctx).temp_file) =
      dirname ((fmts.foldl FileContext.set_format ctx).final_file) ∧
    extAfter ((fmts.foldl FileContext.set_format ctx).temp_file) =
      extAfter ((fmts.foldl FileContext.set_format ctx).final_file) :=
  paired_conclusions _
    (foldl_set_format_paired fmts ctx hfmts
      (FileContext.init_paired fs p ctx fs' hinit))

/-- Witness for C6: the `/d/clip.MOV` transaction on `fsClip`, after the
format changes `mp4` then `webm`. -/
theorem claimC6_witness :
    (FileContext.init fsClip (strL ("/d/clip.MOV")) = (some ctxClip, fsClipAfter) ∧
      (∀ f ∈ [strL ("mp4"), strL ("webm")], '/' ∉ f)) ∧
    (dirname (([strL ("mp4"), strL ("webm")].foldl FileContext.set_format ctxClip).temp_file) =
      dirname (([strL ("mp4"), strL ("webm")].foldl FileContext.set_format ctxClip).final_file) ∧
    extAfter (([strL ("mp4"), strL ("webm")].foldl FileContext.set_format ctxClip).temp_file) =
      extAfter (([strL ("mp4"), strL ("webm")].foldl FileContext.set_format ctxClip).final_file)) :=
  ⟨⟨by decide, by decide⟩,
    claimC6 fsClip (strL ("/d/clip.MOV")) ctxClip fsClipAfter (by decide)
      [strL ("mp4"), strL ("webm")] (by decide)⟩

theorem traverse_zero (op : FileContext → Bool) (format : Str) (recursive : Bool)
    (dir : Str) (fs : FS) :
    traverse op format recursive 0 dir fs = ⟨fs, [], [], []⟩ := rfl

theorem traverse_succ (op : FileContext → Bool) (format : Str) (recursive : Bool)
    (fuel : Nat) (dir : Str) (fs : FS) :
    traverse op format recursive (fuel + 1) dir fs =
    (if fs.exists_ dir = false then ⟨fs, [], [Msg.notFound (normStr dir)], []⟩
     else if fs.isdir dir = false then ⟨fs, [], [Msg.notDir (normStr dir)], []⟩
     else
       let names := fs.childNames (parsePath dir)
       let r := traverseLoop op format recursive
         (traverse op format recursive fuel) dir names fs
       ⟨r.fs, r.log, r.msgs, dir :: r.visits⟩) := rfl

/-- Claim C8: calling `rename_temp_file` on a File Transaction whose
staging file does not exist raises a filesystem error (`FileNotFoundError`
from `os.rename`, modelled as `Except.error`); since the exception
propagates before any filesystem change, the final path — absent before
the call — is still absent. -/
theorem claimC8 (fs : FS) (ctx : FileContext)
    (htemp : fs.exists_ ctx.temp_file = false)
    (hfin : fs.exists_ ctx.final_file = false) :
    ctx.rename_temp_file fs = Except.error () ∧
    fs.exists_ ctx.final_file = false := by
  refine ⟨?_, hfin⟩
  rw [FileContext.rename_temp_file, FS.rename]
  have hnone : fs.kindOf (parsePath ctx.temp_file) = none := by
    rw [FS.exists_] at htemp
    exact Option.not_isSome_iff_eq_none.mp (by simp [htemp])
  rw [hnone]

/-- Witness for C8: `ctxClip` on the original `fsClip`, where neither the
staging file `/d/compressed/clip-temp.MOV` nor the final file
`/d/compressed/clip.MOV` exists. -/
theorem claimC8_witness :
    (fsClip.exists_ ctxClip.temp_file = false ∧
      fsClip.exists_ ctxClip.final_file = false) ∧
    (ctxClip.rename_temp_file fsClip = Except.error () ∧
      fsClip.exists_ ctxClip.final_file = false) :=
  ⟨⟨by decide, by decide⟩, claimC8 fsClip ctxClip (by decide) (by decide)⟩

/-- Claim C9: for a root path that does not exist or is not a directory,
`traverse` prints a setup warning and returns without raising: the
filesystem is unchanged and the Transform Operation is invoked zero
times. -/
theorem claimC9 (op : FileContext → Bool) (format : Str) (recursive : Bool)
    (fuel : Nat) (dir : Str) (fs : FS) (h : fs.isdir dir = false) :
    (traverse op format recursive (fuel + 1) dir fs).fs = fs ∧
    (traverse op format recursive (fuel + 1) dir fs).log = [] ∧
    ((traverse op format recursive (fuel + 1) dir fs).msgs = [Msg.notFound (normStr dir)] ∨
      (traverse op format recursive (fuel + 1) dir fs).msgs = [Msg.notDir (normStr dir)]) := by
  rw [traverse_succ]
  by_cases hex : fs.exists_ dir = true
  · have hex' : (fs.exists_ dir = false) = False := by simp [hex]
    simp only [hex', if_false, h, if_true]
    exact ⟨trivial, trivial, Or.inr trivial⟩
  · simp only [Bool.not_eq_true] at hex
    simp only [hex, if_true]
    exact ⟨trivial, trivial, Or.inl trivial⟩

/-- Witness for C9: the missing root `/nope` on `fsClip`. -/
theorem claimC9_witness :
    fsClip.isdir (strL ("/nope")) = false ∧
    ((traverse (fun _ => true) (strL (".mp4")) false 1 (strL ("/nope")) fsClip).fs = fsClip ∧
      (traverse (fun _ => true) (strL (".mp4")) false 1 (strL ("/nope")) fsClip).log = [] ∧
      ((traverse (fun _ => true) (strL (".mp4")) false 1 (strL ("/nope")) fsClip).msgs =
          [Msg.notFound (normStr (strL ("/nope")))] ∨
        (traverse (fun _ => true) (strL (".mp4")) false 1 (strL ("/nope")) fsClip).msgs =
          [Msg.notDir (normStr (strL ("/nope")))])) :=
  ⟨by decide, claimC9 (fun _ => true) (strL (".mp4")) false 0 (strL ("/nope")) fsClip (by decide)⟩

theorem FS.childNames_mem (fs : FS) (q : PathC) (m : Str) :
    m ∈ fs.childNames q ↔ ∃ k, (⟨q.abs, q.comps ++ [m]⟩, k) ∈ fs.entries := by
  rw [FS.childNames, List.mem_filterMap]
  constructor
  · rintro ⟨e, hmem, hf⟩
    by_cases hcond : e.1.abs = q.abs ∧ e.1.comps.dropLast = q.comps ∧ e.1.comps ≠ []
    · rw [if_pos hcond] at hf
      obtain ⟨habs, hdrop, hne⟩ := hcond
      have hlast : e.1.comps.getLast hne = m := by
        have := List.getLast?_eq_getLast e.1.comps hne
        rw [this] at hf
        injection hf
      have hcomps : e.1.comps = q.comps ++ [m] := by
        rw [← hdrop, ← hlast]
        exact (List.dropLast_append_getLast hne).symm
      refine ⟨e.2, ?_⟩
      have : e.1 = ⟨q.abs, q.comps ++ [m]⟩ := by
        rcases e with ⟨⟨ab, cs⟩, k⟩
        simp only at habs hcomps
        simp [habs, hcomps]
      rw [← this]
      exact hmem
    · rw [if_neg hcond] at hf
      exact absurd hf (by simp)
  · rintro ⟨k, hmem⟩
    refine ⟨(⟨q.abs, q.comps ++ [m]⟩, k), hmem, ?_⟩
    rw [if_pos ⟨rfl, by simp, by simp⟩]
    simp

theorem parsePath_join_rel (d x : Str)
    (habs : (parsePath d).abs = false) (hne : (parsePath d).comps ≠ [])
    (hx : x.head? ≠ some '/') :
    parsePath (joinPath d x) =
      ⟨false, (parsePath d).comps ++ (parsePath x).comps⟩ := by
  have hd_ne : d ≠ [] := by
    intro hd
    apply hne
    rw [hd]
    decide
  have hdhead : d.head? ≠ some '/' := by
    intro hh
    rw [parsePath] at habs
    simp only at habs
    rw [hh] at habs
    simp at habs
  rw [joinPath, if_neg hx]
  rw [if_neg hd_ne]
  by_cases hlast : d.getLast? = some '/'
  · rw [if_pos hlast]
    obtain ⟨d', hd'⟩ : ∃ d', d = d' ++ ['/'] := by
      refine ⟨d.dropLast, ?_⟩
      have h1 := List.dropLast_append_getLast hd_ne
      have h2 : d.getLast hd_ne = '/' := by
        have := List.getLast?_eq_getLast d hd_ne
        rw [this] at hlast
        injection hlast
      rw [← h2]
      exact h1.symm
    have hd'ne : d' ≠ [] := by
      intro h0
      rw [h0] at hd'
      rw [hd'] at hdhead
      exact hdhead rfl
    rw [hd']
    rw [List.append_assoc]
    simp only [List.singleton_append]
    simp only [parsePath, PathC.mk.injEq]
    constructor
    · rcases d' with _ | ⟨a, as⟩
      · exact absurd rfl hd'ne
      · have : a ≠ '/' := by
          intro ha
          apply hdhead
          rw [hd', ha]
          rfl
        simp [this]
    · rw [splitSep_append, List.filter_append]
      congr 1
      have hsplit2 : splitSep (d' ++ ['/']) = splitSep d' ++ [[]] := by
        have h9 : (d' ++ ['/'] : Str) = d' ++ '/' :: [] := rfl
        rw [h9, splitSep_append]
        rfl
      rw [hsplit2, List.filter_append]
      simp
  · rw [if_neg hlast]
    simp only [parsePath, PathC.mk.injEq]
    constructor
    · rcases d with _ | ⟨a, as⟩
      · exact absurd rfl hd_ne
      · have : a ≠ '/' := by
          intro ha
          apply hdhead
          rw [ha]
          rfl
        simp [this]
    · rw [splitSep_append, List.filter_append]

theorem traverseLoop_all_missing (op : FileContext → Bool) (format : Str)
    (recursive : Bool) (rec : Str → FS → TravOut) (dir : Str) :
    ∀ (ns : List Str) (fs : FS),
    (∀ n ∈ ns, fs.exists_ (joinPath dir (childStr dir n)) = false) →
    traverseLoop op format recursive rec dir ns fs =
      ⟨fs, [], ns.map (fun n => Msg.skipMissing (joinPath dir (childStr dir n))), []⟩ := by
  intro ns
  induction ns with
  | nil =>
    intro fs _
    rfl
  | cons n rest ih =>
    intro fs h
    simp only [traverseLoop]
    rw [if_pos (h n (List.mem_cons_self n rest))]
    rw [ih fs (fun x hx => h x (List.mem_cons_of_mem n hx))]
    rfl

theorem childStr_head_rel (d n : Str) (habs : (parsePath d).abs = false)
    (hne : (parsePath d).comps ≠ []) :
    (childStr d n).head? ≠ some '/' := by
  rw [childStr, habs]
  rcases hc : (parsePath d).comps with _ | ⟨c1, rest⟩
  · exact absurd hc hne
  · have hval := parse_comps_valid d c1 (hc ▸ List.mem_cons_self c1 rest)
    have : renderPath ⟨false, c1 :: (rest ++ [n])⟩ = interSep (c1 :: (rest ++ [n])) := by
      simp [renderPath]
    rw [List.cons_append, this, interSep_head? c1 _ hval.1]
    exact head?_ne_slash c1 hval.2.1

/-- Claim C3: `traverse` recomputes each entry's path as
`os.path.join(root, str(Path(root) / name))`, whose second argument
already contains the root.  (a) For an absolute root the join discards
its first argument, so the recomputed path equals the entry's path.
(b) For a relative root of at least one component the recomputed path
resolves to the root components duplicated, and differs from the entry's
path.  (c) Consequently, on a filesystem (with legal entry names) having
no entries at the duplicated paths, a traverse run over such a relative
root finds the existence check failing for every entry of the root: every
entry is skipped, the Transform Operation is never invoked, and the
filesystem is unchanged. -/
theorem claimC3 (d : Str) :
    (∀ n, (parsePath d).abs = true → joinPath d (childStr d n) = childStr d n) ∧
    (∀ n, validName n → (parsePath d).abs = false → (parsePath d).comps ≠ [] →
      parsePath (joinPath d (childStr d n)) =
        ⟨false, (parsePath d).comps ++ ((parsePath d).comps ++ [n])⟩ ∧
      joinPath d (childStr d n) ≠ childStr d n) ∧
    (∀ op format recursive fuel (fs : FS),
      (parsePath d).abs = false → (parsePath d).comps ≠ [] →
      fs.ValidNames →
      (∀ n ∈ fs.childNames (parsePath d),
        fs.kindOf ⟨false, (parsePath d).comps ++ ((parsePath d).comps ++ [n])⟩ = none) →
      (traverse op format recursive fuel d fs).log = [] ∧
      (traverse op format recursive fuel d fs).fs = fs) := by
  refine ⟨fun n habs => joinPath_childStr_abs d n habs, ?_, ?_⟩
  · intro n hn habs hne
    have hx := childStr_head_rel d n habs hne
    have hparse_child := parsePath_childStr d n hn
    have hjoin := parsePath_join_rel d (childStr d n) habs hne hx
    rw [hparse_child, habs] at hjoin
    refine ⟨hjoin, ?_⟩
    intro heq
    rw [heq, hparse_child, habs] at hjoin
    have := congrArg (fun q => q.comps.length) hjoin
    simp only [List.length_append, List.length_cons] at this
    rcases hc : (parsePath d).comps with _ | ⟨c1, rest⟩
    · exact absurd hc hne
    · rw [hc] at this
      simp at this
  · intro op format recursive fuel fs habs hne hvalid hmissing
    rcases fuel with _ | fuel
    · exact ⟨rfl, rfl⟩
    · rw [traverse_succ]
      by_cases hex : fs.exists_ d = false
      · rw [if_pos hex]
        exact ⟨rfl, rfl⟩
      · rw [if_neg hex]
        by_cases hdir : fs.isdir d = false
        · rw [if_pos hdir]
          exact ⟨rfl, rfl⟩
        · rw [if_neg hdir]
          have hloop := traverseLoop_all_missing op format recursive
            (traverse op format recursive fuel) d (fs.childNames (parsePath d)) fs ?_
          · simp only [hloop]
            exact ⟨trivial, trivial⟩
          · intro n hnmem
            obtain ⟨k, hkmem⟩ := (FS.childNames_mem fs (parsePath d) n).mp hnmem
            have hnvalid : validName n := by
              have := (hvalid _ hkmem).1 n (by simp)
              exact this
            have hx := childStr_head_rel d n habs hne
            have hparse_child := parsePath_childStr d n hnvalid
            have hjoin := parsePath_join_rel d (childStr d n) habs hne hx
            rw [hparse_child, habs] at hjoin
            rw [FS.exists_, hjoin, hmissing n hnmem]
            rfl

/-- Witness for C3: the relative root `rel` on `fsRel`, with the entry
name `a.mp4`. -/
theorem claimC3_witness :
    (validName (strL ("a.mp4")) ∧ (parsePath (strL ("rel"))).abs = false ∧
      (parsePath (strL ("rel"))).comps ≠ [] ∧ fsRel.ValidNames ∧
      (∀ n ∈ fsRel.childNames (parsePath (strL ("rel"))),
        fsRel.kindOf ⟨false, (parsePath (strL ("rel"))).comps ++
          ((parsePath (strL ("rel"))).comps ++ [n])⟩ = none)) ∧
    (parsePath (joinPath (strL ("rel")) (childStr (strL ("rel")) (strL ("a.mp4")))) =
        ⟨false, (parsePath (strL ("rel"))).comps ++
          ((parsePath (strL ("rel"))).comps ++ [strL ("a.mp4")])⟩ ∧
      joinPath (strL ("rel")) (childStr (strL ("rel")) (strL ("a.mp4"))) ≠
        childStr (strL ("rel")) (strL ("a.mp4"))) ∧
    ((traverse (fun _ => true) (strL (".mp4")) true 5 (strL ("rel")) fsRel).log = [] ∧
      (traverse (fun _ => true) (strL (".mp4")) true 5 (strL ("rel")) fsRel).fs = fsRel) :=
  ⟨⟨by decide, by decide, by decide, by decide, by decide⟩,
    (claimC3 (strL ("rel"))).2.1 (strL ("a.mp4")) (by decide) (by decide) (by decide),
    (claimC3 (strL ("rel"))).2.2 (fun _ => true) (strL (".mp4")) true 5 fsRel
      (by decide) (by decide) (by decide) (by decide)⟩

theorem traverseLoop_entries_ext (op : FileContext → Bool) (format : Str)
    (recursive : Bool) (rec : Str → FS → TravOut)
    (hrec : ∀ s g, ∃ new, (rec s g).fs.entries = g.entries ++ new ∧
      ∀ e ∈ new, e.2 = EKind.dir)
    (dir : Str) : ∀ (ns : List Str) (fs : FS),
    ∃ new, (traverseLoop op format recursive rec dir ns fs).fs.entries =
      fs.entries ++ new ∧ ∀ e ∈ new, e.2 = EKind.dir := by
  intro ns
  induction ns with
  | nil =>
    intro fs
    exact ⟨[], by simp [traverseLoop], by simp⟩
  | cons n rest ih =>
    intro fs
    simp only [traverseLoop]
    by_cases h1 : fs.exists_ (joinPath dir (childStr dir n)) = false
    · rw [if_pos h1]
      exact ih fs
    · rw [if_neg h1]
      by_cases h2 : fs.isfile (joinPath dir (childStr dir n)) = false
      · rw [if_pos h2]
        by_cases h3 : recursive = true
        · rw [if_pos h3]
          obtain ⟨new1, hnew1, hdir1⟩ := hrec (joinPath dir (childStr dir n)) fs
          obtain ⟨new2, hnew2, hdir2⟩ := ih (rec (joinPath dir (childStr dir n)) fs).fs
          refine ⟨new1 ++ new2, ?_, ?_⟩
          · simp only [hnew2, hnew1, List.append_assoc]
          · intro e he
            rcases List.mem_append.mp he with he | he
            · exact hdir1 e he
            · exact hdir2 e he
        · rw [if_neg h3]
          exact ih fs
      · rw [if_neg h2]
        by_cases h4 : endsWithCI format (joinPath dir (childStr dir n)) = true
        · rw [if_pos h4]
          obtain ⟨new0, hnew0, hdir0⟩ := FileContext.init_shape fs (joinPath dir (childStr dir n))
          rcases hini : FileContext.init fs (joinPath dir (childStr dir n)) with ⟨octx, fs1⟩
          rw [hini] at hnew0
          simp only at hnew0
          obtain ⟨new2, hnew2, hdir2⟩ := ih fs1
          have hcompose : ∀ (r : TravOut),
              r.fs = (traverseLoop op format recursive rec dir rest fs1).fs →
              ∃ new, r.fs.entries = fs.entries ++ new ∧ ∀ e ∈ new, e.2 = EKind.dir := by
            intro r hr
            refine ⟨new0 ++ new2, ?_, ?_⟩
            · rw [hr, hnew2, hnew0, List.append_assoc]
            · intro e he
              rcases List.mem_append.mp he with he | he
              · exact (hdir0 e he).1
              · exact hdir2 e he
          rcases octx with _ | ctx
          · exact hcompose _ rfl
          · exact hcompose _ rfl
        · rw [if_neg h4]
          exact ih fs

theorem traverse_entries_ext (op : FileContext → Bool) (format : Str)
    (recursive : Bool) : ∀ (fuel : Nat) (dir : Str) (fs : FS),
    ∃ new, (traverse op format recursive fuel dir fs).fs.entries =
      fs.entries ++ new ∧ ∀ e ∈ new, e.2 = EKind.dir := by
  intro fuel
  induction fuel with
  | zero =>
    intro dir fs
    exact ⟨[], by simp [traverse_zero], by simp⟩
  | succ fuel ih =>
    intro dir fs
    rw [traverse_succ]
    by_cases h1 : fs.exists_ dir = false
    · rw [if_pos h1]
      exact ⟨[], by simp, by simp⟩
    · rw [if_neg h1]
      by_cases h2 : fs.isdir dir = false
      · rw [if_pos h2]
        exact ⟨[], by simp, by simp⟩
      · rw [if_neg h2]
        obtain ⟨new, hnew, hdir⟩ := traverseLoop_entries_ext op format recursive
          (traverse op format recursive fuel) ih dir (fs.childNames (parsePath dir)) fs
        exact ⟨new, hnew, hdir⟩

/-- Counterexample to Claim C10 as stated: with an effect-free Transform
Operation, a non-recursive run over `/d` on `fsAbs` changes the
filesystem — the engine itself creates the `compressed` staging
directory. -/
theorem claimC10_counterexample :
    (traverse (fun _ => true) (strL (".mp4")) false 3 (strL ("/d")) fsAbs).fs ≠ fsAbs := by
  decide

/-- Claim C10 (amended): a traverse run's only filesystem side effect of
the engine itself is the creation of staging directories during File
Transaction construction: with an effect-free Transform Operation, the
filesystem after a run is the filesystem before plus appended directory
entries only — the engine writes no files and removes or modifies
nothing. -/
theorem claimC10 (op : FileContext → Bool) (format : Str) (recursive : Bool)
    (fuel : Nat) (dir : Str) (fs : FS) :
    ∃ new, (traverse op format recursive fuel dir fs).fs.entries =
      fs.entries ++ new ∧ ∀ e ∈ new, e.2 = EKind.dir :=
  traverse_entries_ext op format recursive fuel dir fs

theorem toNat_ofNat_small (n : Nat) (h : n < 55296) : (Char.ofNat n).toNat = n := by
  rw [Char.ofNat, dif_pos (Or.inl h)]
  simp only [Char.ofNatAux, Char.toNat]
  simp only [UInt32.toNat]
  simp [BitVec.toNat_ofNat]

theorem lowerChar_fix_low (c x : Char) (hx : x.toNat < 97) (h : lowerChar c = x) :
    c = x := by
  rw [lowerChar] at h
  by_cases hc : 65 ≤ c.toNat ∧ c.toNat ≤ 90
  · rw [if_pos hc] at h
    have h32 : c.toNat + 32 < 55296 := by omega
    have := congrArg Char.toNat h
    rw [toNat_ofNat_small _ h32] at this
    omega
  · rw [if_neg hc] at h
    exact h

theorem lowerChar_slash (c : Char) (h : lowerChar c = '/') : c = '/' :=
  lowerChar_fix_low c '/' (by decide) h

theorem lowerChar_dot (c : Char) (h : lowerChar c = '.') : c = '.' :=
  lowerChar_fix_low c '.' (by decide) h

theorem lowerS_append (a b : Str) : lowerS (a ++ b) = lowerS a ++ lowerS b := by
  simp [lowerS]

theorem lowerS_cons (c : Char) (s : Str) : lowerS (c :: s) = lowerChar c :: lowerS s := rfl

theorem not_slash_lowerS (s : Str) (h : '/' ∉ s) : '/' ∉ lowerS s := by
  intro hm
  obtain ⟨c, hc, hlc⟩ := List.mem_map.mp hm
  exact h (lowerChar_slash c hlc ▸ hc)

theorem dot_mem_of_lowerS (s : Str) (h : '.' ∈ lowerS s) : '.' ∈ s := by
  obtain ⟨c, hc, hlc⟩ := List.mem_map.mp h
  exact lowerChar_dot c hlc ▸ hc

theorem dot_mem_lowerS (s : Str) (h : '.' ∈ s) : '.' ∈ lowerS s :=
  List.mem_map.mpr ⟨'.', h, by decide⟩

theorem suffix_through_slash (fl A n : Str) (hfl : '/' ∉ fl) (hn : '/' ∉ n) :
    fl <:+ (A ++ '/' :: n) ↔ fl <:+ n := by
  constructor
  · intro h
    by_cases hlen : fl.length ≤ n.length
    · rw [List.suffix_iff_eq_drop] at h ⊢
      rw [h]
      have hlen2 : (A ++ '/' :: n).length = A.length + 1 + n.length := by
        simp
        omega
      have hpos : (A ++ '/' :: n).length - fl.length = (A.length + 1) + (n.length - fl.length) := by
        omega
      rw [hpos, ← List.drop_drop]
      have hdropA : (A ++ '/' :: n).drop (A.length + 1) = n := by
        have : (A ++ '/' :: n) = (A ++ ['/']) ++ n := by simp
        rw [this, List.drop_append_of_le_length (by simp)]
        simp
      rw [hdropA]
      have hlfix : fl.length = n.length - (n.length - fl.length) := by omega
      congr 1
      rw [List.length_drop]
      omega
    · exfalso
      rw [List.suffix_iff_eq_drop] at h
      have hp : (A ++ '/' :: n).length - fl.length ≤ A.length := by
        simp
        omega
      apply hfl
      rw [h, List.drop_append_of_le_length hp]
      exact List.mem_append_right _ (List.mem_cons_self '/' n)
  · intro h
    exact h.trans ⟨A ++ ['/'], by simp⟩

theorem bool_eq_of_iff {a b : Bool} (h : a = true ↔ b = true) : a = b := by
  cases a <;> cases b <;> simp_all

theorem endsWithCI_iff (fmt s : Str) :
    endsWithCI fmt s = true ↔ (lowerS fmt) <:+ (lowerS s) := by
  rw [endsWithCI]
  exact List.isSuffixOf_iff_suffix

theorem endsWithCI_append_slash (fmt A n : Str) (hfmt : '/' ∉ fmt) (hn : '/' ∉ n) :
    endsWithCI fmt (A ++ '/' :: n) = endsWithCI fmt n := by
  have h1 : lowerS (A ++ '/' :: n) = lowerS A ++ '/' :: lowerS n := by
    rw [lowerS_append, lowerS_cons]
    have : lowerChar '/' = '/' := by decide
    rw [this]
  apply bool_eq_of_iff
  rw [endsWithCI_iff, endsWithCI_iff, h1]
  exact suffix_through_slash _ _ _ (not_slash_lowerS fmt hfmt) (not_slash_lowerS n hn)

theorem getLast?_cons_of_ne_nil {α : Type} (c : α) (n : List α) (hn : n ≠ []) :
    (c :: n).getLast? = n.getLast? := by
  rcases n with _ | ⟨x, xs⟩
  · exact absurd rfl hn
  · exact List.getLast?_cons_cons

theorem interSep_snoc (cs : List Str) (n : Str) (hcs : cs ≠ []) :
    interSep (cs ++ [n]) = interSep cs ++ '/' :: n := by
  induction cs with
  | nil => exact absurd rfl hcs
  | cons c rest ih =>
    by_cases hr : rest = []
    · subst hr
      rfl
    · rw [List.cons_append, interSep_cons c (rest ++ [n]) (by simp [hr]),
          interSep_cons c rest hr, ih hr]
      simp

theorem renderPath_abs_snoc (cs : List Str) (n : Str) (hcs : cs ≠ []) :
    renderPath ⟨true, cs ++ [n]⟩ = renderPath ⟨true, cs⟩ ++ '/' :: n := by
  rcases cs with _ | ⟨c, rest⟩
  · exact absurd rfl hcs
  · show (['/'] ++ interSep ((c :: rest) ++ [n]) : Str) = (['/'] ++ interSep (c :: rest)) ++ '/' :: n
    rw [interSep_snoc _ _ (by simp)]
    simp

theorem renderPath_abs_one (n : Str) : renderPath ⟨true, [n]⟩ = '/' :: n := rfl

theorem renderPath_abs_ne_nil (cs : List Str) : renderPath ⟨true, cs⟩ ≠ [] := by
  intro h
  have := renderPath_abs_head cs
  rw [h] at this
  exact absurd this (by simp)

theorem renderPath_getLast_ne (cs : List Str) (hne : cs ≠ [])
    (hval : ∀ x ∈ cs, validName x) :
    (renderPath ⟨true, cs⟩).getLast? ≠ some '/' := by
  rcases List.eq_nil_or_concat cs with h | ⟨L, b, hLb⟩
  · exact absurd h hne
  · have hLb2 : cs = L ++ [b] := by
      rw [hLb, List.concat_eq_append]
    subst hLb2
    have hb := hval b (by simp)
    have hbl : b.getLast? ≠ some '/' := by
      intro hcontra
      rw [List.getLast?_eq_getLast b hb.1] at hcontra
      injection hcontra with h2
      exact hb.2.1 (h2 ▸ List.getLast_mem hb.1)
    by_cases hL : L = []
    · subst hL
      rw [List.nil_append, renderPath_abs_one, getLast?_cons_of_ne_nil _ _ hb.1]
      exact hbl
    · rw [renderPath_abs_snoc L b hL,
          getLast?_append_of_ne_nil _ _ (by simp),
          getLast?_cons_of_ne_nil _ _ hb.1]
      exact hbl

theorem dirname_render_snoc (cs : List Str) (n : Str)
    (hval : ∀ x ∈ cs, validName x) (hn : validName n) :
    dirname (renderPath ⟨true, cs ++ [n]⟩) = renderPath ⟨true, cs⟩ := by
  rcases hc : cs with _ | ⟨c, rest⟩
  · rw [List.nil_append, renderPath_abs_one]
    exact dirname_root n hn.2.1
  · rw [← hc, renderPath_abs_snoc cs n (by simp [hc])]
    exact dirname_append _ _ (renderPath_abs_ne_nil cs)
      (renderPath_getLast_ne cs (by simp [hc]) hval) hn.2.1

theorem basename_render_snoc (cs : List Str) (n : Str) (hn : validName n) :
    basename (renderPath ⟨true, cs ++ [n]⟩) = n := by
  rcases hc : cs with _ | ⟨c, rest⟩
  · rw [List.nil_append, renderPath_abs_one]
    have : ('/' :: n : Str) = [] ++ '/' :: n := rfl
    rw [this]
    exact basename_append _ _ hn.2.1
  · rw [← hc, renderPath_abs_snoc cs n (by simp [hc])]
    exact basename_append _ _ hn.2.1

theorem joinPath_render_compressed (cs : List Str) (hval : ∀ x ∈ cs, validName x) :
    joinPath (renderPath ⟨true, cs⟩) compressedName =
      renderPath ⟨true, cs ++ [compressedName]⟩ := by
  rcases hc : cs with _ | ⟨c, rest⟩
  · decide
  · rw [← hc, joinPath_rel _ _ (renderPath_abs_ne_nil cs)
      (renderPath_getLast_ne cs (by simp [hc]) hval) (by decide),
      renderPath_abs_snoc cs compressedName (by simp [hc])]

theorem endsWithCI_render_snoc (fmt : Str) (cs : List Str) (n : Str)
    (hfmt : '/' ∉ fmt) (hn : validName n) :
    endsWithCI fmt (renderPath ⟨true, cs ++ [n]⟩) = endsWithCI fmt n := by
  rcases hc : cs with _ | ⟨c, rest⟩
  · rw [List.nil_append, renderPath_abs_one]
    have : ('/' :: n : Str) = [] ++ '/' :: n := rfl
    rw [this]
    exact endsWithCI_append_slash fmt [] n hfmt hn.2.1
  · rw [← hc, renderPath_abs_snoc cs n (by simp [hc])]
    exact endsWithCI_append_slash fmt _ n hfmt hn.2.1

theorem find?_map_of_mem_nodup (p : PathC) (k : EKind) :
    ∀ l : List (PathC × EKind), (l.map Prod.fst).Nodup → (p, k) ∈ l →
    (l.find? (fun e => e.1 = p)).map (fun e => e.2) = some k := by
  intro l
  induction l with
  | nil => intro _ hm; exact absurd hm (by simp)
  | cons e rest ih =>
    intro hnd hm
    rcases List.mem_cons.mp hm with hm | hm
    · rw [← hm]
      rw [List.find?_cons_of_pos _ (by simp)]
      rfl
    · rw [List.map_cons] at hnd
      have hpair := List.nodup_cons.mp hnd
      have hne : ¬ e.1 = p := by
        intro hep
        have h1 : p ∈ rest.map Prod.fst :=
          List.mem_map.mpr ⟨(p, k), hm, rfl⟩
        exact hpair.1 (hep ▸ h1)
      rw [List.find?_cons_of_neg _ (by simpa using hne)]
      exact ih hpair.2 hm

theorem FS.kindOf_of_mem (fs : FS) (hnd : fs.Nodup) (p : PathC) (k : EKind)
    (hm : (p, k) ∈ fs.entries) : fs.kindOf p = some k :=
  find?_map_of_mem_nodup p k fs.entries hnd hm

theorem FS.mem_of_kindOf (fs : FS) (p : PathC) (k : EKind)
    (h : fs.kindOf p = some k) : (p, k) ∈ fs.entries := by
  rw [FS.kindOf] at h
  rcases hf : fs.entries.find? (fun e => e.1 = p) with _ | e
  · rw [hf] at h
    exact absurd h (by simp)
  · rw [hf] at h
    have h1 : e.1 = p := by simpa using List.find?_some hf
    have h2 : e.2 = k := by simpa using h
    have h3 := List.mem_of_find?_eq_some hf
    have : e = (p, k) := by
      rcases e with ⟨e1, e2⟩
      simp only at h1 h2
      rw [h1, h2]
    exact this ▸ h3

theorem FS.maxLen_ge (fs : FS) : ∀ e ∈ fs.entries, e.1.comps.length ≤ fs.maxLen := by
  rw [FS.maxLen]
  generalize fs.entries = l
  induction l with
  | nil => intro e he; exact absurd he (by simp)
  | cons a rest ih =>
    intro e he
    rcases List.mem_cons.mp he with he | he
    · rw [he, List.foldr_cons]
      exact Nat.le_max_left _ _
    · rw [List.foldr_cons]
      exact (ih e he).trans (Nat.le_max_right _ _)

theorem foldr_max_append (f : PathC × EKind → Nat) (l1 l2 : List (PathC × EKind)) :
    (l1 ++ l2).foldr (fun e m => max (f e) m) 0 =
      max (l1.foldr (fun e m => max (f e) m) 0) (l2.foldr (fun e m => max (f e) m) 0) := by
  induction l1 with
  | nil => simp
  | cons a rest ih =>
    simp only [List.cons_append, List.foldr_cons, ih]
    omega

theorem FS.maxLen_append (fs : FS) (new : List (PathC × EKind))
    (hnew : ∀ e ∈ new, e.1.comps.length ≤ fs.maxLen) :
    (FS.mk (fs.entries ++ new)).maxLen = fs.maxLen := by
  show (fs.entries ++ new).foldr (fun e m => max e.1.comps.length m) 0 = fs.maxLen
  rw [foldr_max_append (fun e => e.1.comps.length)]
  have h2 : new.foldr (fun e m => max e.1.comps.length m) 0 ≤ fs.maxLen := by
    induction new with
    | nil => simp
    | cons a rest ih =>
      rw [List.foldr_cons]
      have ha := hnew a (by simp)
      have hr := ih (fun e he => hnew e (List.mem_cons_of_mem a he))
      omega
  have : fs.entries.foldr (fun e m => max e.1.comps.length m) 0 = fs.maxLen := rfl
  rw [this]
  omega

theorem file_mem_append_iff (g : FS) (new : List (PathC × EKind))
    (hd : ∀ e ∈ new, e.2 = EKind.dir) (p : PathC) :
    ((p, EKind.file) ∈ g.entries ++ new) ↔ (p, EKind.file) ∈ g.entries := by
  constructor
  · intro h
    rcases List.mem_append.mp h with h | h
    · exact h
    · have := hd _ h
      simp at this
  · intro h
    exact List.mem_append_left _ h

theorem childNames_elem_eq (q : PathC) (e : PathC × EKind) (m : Str)
    (hf : (if e.1.abs = q.abs ∧ e.1.comps.dropLast = q.comps ∧ e.1.comps ≠ [] then
      e.1.comps.getLast? else none) = some m) :
    e.1 = ⟨q.abs, q.comps ++ [m]⟩ := by
  by_cases hcond : e.1.abs = q.abs ∧ e.1.comps.dropLast = q.comps ∧ e.1.comps ≠ []
  · rw [if_pos hcond] at hf
    obtain ⟨habs, hdrop, hne⟩ := hcond
    have hlast : e.1.comps.getLast hne = m := by
      have := List.getLast?_eq_getLast e.1.comps hne
      rw [this] at hf
      injection hf
    have hcomps : e.1.comps = q.comps ++ [m] := by
      rw [← hdrop, ← hlast]
      exact (List.dropLast_append_getLast hne).symm
    rcases e with ⟨⟨ab, cs⟩, k⟩
    simp only at habs hcomps
    simp [habs, hcomps]
  · rw [if_neg hcond] at hf
    exact absurd hf (by simp)

theorem FS.childNames_nodup (fs : FS) (hnd : fs.Nodup) (q : PathC) :
    (fs.childNames q).Nodup := by
  rw [FS.childNames]
  rw [FS.Nodup] at hnd
  generalize hl : fs.entries = l at hnd
  clear hl
  induction l with
  | nil => simp
  | cons e rest ih =>
    rw [List.filterMap_cons]
    rw [List.map_cons] at hnd
    have hnd2 := List.nodup_cons.mp hnd
    rcases hf : (if e.1.abs = q.abs ∧ e.1.comps.dropLast = q.comps ∧ e.1.comps ≠ [] then
        e.1.comps.getLast? else none) with _ | m
    · exact ih hnd2.2
    · rw [List.nodup_cons]
      refine ⟨?_, ih hnd2.2⟩
      intro hm
      obtain ⟨e2, he2mem, hf2⟩ := List.mem_filterMap.mp hm
      have h1 := childNames_elem_eq q e m hf
      have h2 := childNames_elem_eq q e2 m hf2
      apply hnd2.1
      rw [h1, ← h2]
      exact List.mem_map.mpr ⟨e2, he2mem, rfl⟩

theorem rsplit1_isSome_of_mem (c : Char) (s : Str) (h : c ∈ s) :
    ∃ a b, rsplit1 c s = some (a, b) := by
  simp only [rsplit1, decide_not]
  rcases hd : s.reverse.dropWhile (fun x => !decide (x = c)) with _ | ⟨z, zs⟩
  · have := List.dropWhile_eq_nil_iff.mp hd c (List.mem_reverse.mpr h)
    simp at this
  · exact ⟨zs.reverse, _, rfl⟩

theorem FS.kindOf_eq_none_not_mem (fs : FS) (p : PathC) (h : fs.kindOf p = none) :
    ∀ k, (p, k) ∉ fs.entries := by
  intro k hm
  rw [FS.kindOf] at h
  rcases hf : fs.entries.find? (fun e => e.1 = p) with _ | e
  · have := List.find?_eq_none.mp hf (p, k) hm
    simp at this
  · rw [hf] at h
    exact absurd h (by simp)

theorem FS.mkdirsAux_WF (ab : Bool) (rest : List Str) : ∀ (g : FS) (done : List Str),
    g.WF →
    (∀ x ∈ done, validName x) → (∀ x ∈ rest, validName x) →
    (∀ j, 0 < j → j ≤ done.length → ((⟨ab, done.take j⟩ : PathC), EKind.dir) ∈ g.entries) →
    (FS.mkdirsAux ab g done rest).2.WF := by
  induction rest with
  | nil =>
    intro g done hWF _ _ _
    exact hWF
  | cons c rs ih =>
    intro g done hWF hvdone hvrest hinv
    have hvc : validName c := hvrest c (by simp)
    have hvcur : ∀ x ∈ done ++ [c], validName x := by
      intro x hx
      rcases List.mem_append.mp hx with hx | hx
      · exact hvdone x hx
      · rw [List.mem_singleton.mp hx]
        exact hvc
    rcases hk : g.kindOf ⟨ab, done ++ [c]⟩ with _ | k
    · simp only [FS.mkdirsAux, hk]
      set g' : FS := ⟨g.entries ++ [(⟨ab, done ++ [c]⟩, EKind.dir)]⟩ with hg'
      have hnotmem : ∀ kk, ((⟨ab, done ++ [c]⟩ : PathC), kk) ∉ g.entries :=
        FS.kindOf_eq_none_not_mem g _ hk
      have hWF' : g'.WF := by
        obtain ⟨hnd, hcl, hvn⟩ := hWF
        refine ⟨?_, ?_, ?_⟩
        · rw [FS.Nodup, hg']
          simp only [List.map_append, List.map_cons, List.map_nil]
          rw [List.nodup_append]
          refine ⟨hnd, by simp, ?_⟩
          intro p hp hp2
          simp only [List.mem_singleton] at hp2
          obtain ⟨e, hemem, hee⟩ := List.mem_map.mp hp
          rcases e with ⟨e1, e2⟩
          simp only at hee
          apply hnotmem e2
          rw [hee, hp2] at hemem
          exact hemem
        · intro e hemem j hj1 hj2
          rcases List.mem_append.mp hemem with hm | hm
          · exact List.mem_append_left _ (hcl e hm j hj1 hj2)
          · have he := List.mem_singleton.mp hm
            subst he
            simp only [List.length_append, List.length_cons, List.length_nil] at hj1
            have hj3 : j ≤ done.length := by omega
            rw [List.take_append_of_le_length hj3]
            exact List.mem_append_left _ (hinv j hj2 hj3)
        · intro e hemem
          rcases List.mem_append.mp hemem with hm | hm
          · exact hvn e hm
          · rw [List.mem_singleton.mp hm]
            exact ⟨hvcur, by simp⟩
      apply ih g' (done ++ [c]) hWF' hvcur
        (fun x hx => hvrest x (List.mem_cons_of_mem c hx))
      intro j hj1 hj2
      simp only [List.length_append, List.length_cons, List.length_nil] at hj2
      by_cases hj3 : j ≤ done.length
      · rw [List.take_append_of_le_length hj3]
        exact List.mem_append_left _ (hinv j hj1 hj3)
      · have htake : (done ++ [c]).take j = done ++ [c] := by
          apply List.take_of_length_le
          simp only [List.length_append, List.length_cons, List.length_nil]
          omega
        rw [htake]
        exact List.mem_append_right _ (by simp)
    · cases k
      · simp only [FS.mkdirsAux, hk]
        exact hWF
      · simp only [FS.mkdirsAux, hk]
        apply ih g (done ++ [c]) hWF hvcur
          (fun x hx => hvrest x (List.mem_cons_of_mem c hx))
        intro j hj1 hj2
        simp only [List.length_append, List.length_cons, List.length_nil] at hj2
        by_cases hj3 : j ≤ done.length
        · rw [List.take_append_of_le_length hj3]
          exact hinv j hj1 hj3
        · have hj4 : j = done.length + 1 := by omega
          have htake : (done ++ [c]).take j = done ++ [c] := by
            apply List.take_of_length_le
            simp
            omega
          rw [htake]
          exact FS.mem_of_kindOf g _ _ hk

theorem FileContext.init_at_child (g : FS) (qc : List Str) (n : Str)
    (hWF : g.WF)
    (hmem : ((⟨true, qc ++ [n]⟩ : PathC), EKind.file) ∈ g.entries)
    (hdotn : '.' ∈ n) :
    ∃ ctx g1, FileContext.init g (renderPath ⟨true, qc ++ [n]⟩) = (some ctx, g1) ∧
      ctx.original_file = renderPath ⟨true, qc ++ [n]⟩ ∧
      (∃ new, g1.entries = g.entries ++ new ∧
        ∀ e ∈ new, e.2 = EKind.dir ∧ e.1.comps.length ≤ g.maxLen) ∧
      g1.WF ∧ g1.maxLen = g.maxLen := by
  obtain ⟨hnd, hcl, hvn⟩ := hWF
  have hvall := (hvn _ hmem).1
  have hvq : ∀ x ∈ qc, validName x := fun x hx => hvall x (List.mem_append_left _ hx)
  have hvnn : validName n := hvall n (by simp)
  have hbase : basename (renderPath ⟨true, qc ++ [n]⟩) = n := basename_render_snoc qc n hvnn
  have hdirn : dirname (renderPath ⟨true, qc ++ [n]⟩) = renderPath ⟨true, qc⟩ :=
    dirname_render_snoc qc n hvq hvnn
  obtain ⟨nm, fm, hr⟩ := rsplit1_isSome_of_mem '.' n hdotn
  have hvqc : ∀ x ∈ qc ++ [compressedName], validName x := by
    intro x hx
    rcases List.mem_append.mp hx with hx | hx
    · exact hvq x hx
    · rw [List.mem_singleton.mp hx]
      exact ⟨by decide, by decide, by decide⟩
  have hcd : joinPath (dirname (renderPath ⟨true, qc ++ [n]⟩)) compressedName =
      renderPath ⟨true, qc ++ [compressedName]⟩ := by
    rw [hdirn]
    exact joinPath_render_compressed qc hvq
  have hparsecd : parsePath (joinPath (dirname (renderPath ⟨true, qc ++ [n]⟩)) compressedName) =
      ⟨true, qc ++ [compressedName]⟩ := by
    rw [hcd]
    exact parsePath_renderPath true _ hvqc
  have hlen : qc.length + 1 ≤ g.maxLen := by
    have := FS.maxLen_ge g _ hmem
    simpa using this
  by_cases hex : g.exists_ (joinPath (dirname (renderPath ⟨true, qc ++ [n]⟩)) compressedName) = true
  · refine ⟨{ original_file := renderPath ⟨true, qc ++ [n]⟩
              temp_file := joinPath (joinPath (dirname (renderPath ⟨true, qc ++ [n]⟩))
                compressedName) (nm ++ tempMarker ++ fm)
              final_file := joinPath (joinPath (dirname (renderPath ⟨true, qc ++ [n]⟩))
                compressedName) n
              original_file_name := FileContext.convert_file_name (renderPath ⟨true, qc ++ [n]⟩)
              temp_file_name := FileContext.convert_file_name
                (joinPath (joinPath (dirname (renderPath ⟨true, qc ++ [n]⟩))
                  compressedName) (nm ++ tempMarker ++ fm)) },
      g, ?_, rfl, ⟨[], by simp, by simp⟩, ⟨hnd, hcl, hvn⟩, rfl⟩
    simp only [FileContext.init]
    rw [hbase, hr]
    simp only [hex, if_true]
  · simp only [Bool.not_eq_true] at hex
    have hok : (g.mkdirAll (parsePath (joinPath (dirname (renderPath ⟨true, qc ++ [n]⟩))
        compressedName))).1 = true := by
      rw [hparsecd, FS.mkdirAll]
      apply FS.mkdirsAux_ok
      intro k hk0 hkle
      simp only [List.length_append, List.length_cons, List.length_nil] at hkle
      rw [List.nil_append]
      by_cases hks : k ≤ qc.length
      · rw [List.take_append_of_le_length hks]
        have hcle := hcl _ hmem k (by simp; omega) hk0
        have : (qc ++ [n]).take k = qc.take k := List.take_append_of_le_length hks
        rw [this] at hcle
        rw [FS.kindOf_of_mem g hnd _ _ hcle]
        simp
      · have hkeq : k = qc.length + 1 := by omega
        have htake : (qc ++ [compressedName]).take k = qc ++ [compressedName] := by
          apply List.take_of_length_le
          simp only [List.length_append, List.length_cons, List.length_nil]
          omega
        rw [htake]
        have : g.kindOf ⟨true, qc ++ [compressedName]⟩ = none := by
          rw [FS.exists_, hparsecd] at hex
          exact Option.not_isSome_iff_eq_none.mp (by simp [hex])
        rw [this]
        simp
    have hinit : FileContext.init g (renderPath ⟨true, qc ++ [n]⟩) =
        (some { original_file := renderPath ⟨true, qc ++ [n]⟩
                temp_file := joinPath (joinPath (dirname (renderPath ⟨true, qc ++ [n]⟩))
                  compressedName) (nm ++ tempMarker ++ fm)
                final_file := joinPath (joinPath (dirname (renderPath ⟨true, qc ++ [n]⟩))
                  compressedName) n
                original_file_name := FileContext.convert_file_name (renderPath ⟨true, qc ++ [n]⟩)
                temp_file_name := FileContext.convert_file_name
                  (joinPath (joinPath (dirname (renderPath ⟨true, qc ++ [n]⟩))
                    compressedName) (nm ++ tempMarker ++ fm)) },
          (g.mkdirAll (parsePath (joinPath (dirname (renderPath ⟨true, qc ++ [n]⟩))
            compressedName))).2) := by
      simp only [FileContext.init]
      rw [hbase, hr]
      simp only [hex, Bool.false_eq_true, if_false]
      simp only [hok, if_true]
    obtain ⟨new, hnew, hprop⟩ := FS.mkdirsAux_shape true (qc ++ [compressedName]) g []
    have hmk : (g.mkdirAll (parsePath (joinPath (dirname (renderPath ⟨true, qc ++ [n]⟩))
        compressedName))).2.entries = g.entries ++ new := by
      rw [hparsecd, FS.mkdirAll]
      exact hnew
    have hbound : ∀ e ∈ new, e.2 = EKind.dir ∧ e.1.comps.length ≤ g.maxLen := by
      intro e he
      obtain ⟨hdir2, k, hk0, hkle, hshape⟩ := hprop e he
      refine ⟨hdir2, ?_⟩
      rw [hshape]
      simp only [List.nil_append]
      have : ((qc ++ [compressedName]).take k).length ≤ k := by
        simp [List.length_take]
      have hkb : k ≤ qc.length + 1 := by
        simpa using hkle
      omega
    refine ⟨_, _, hinit, rfl, ⟨new, hmk, hbound⟩, ?_, ?_⟩
    · rw [hparsecd, FS.mkdirAll]
      apply FS.mkdirsAux_WF
      · exact ⟨hnd, hcl, hvn⟩
      · simp
      · exact hvqc
      · intro j hj1 hj2
        simp at hj2
        omega
    · have : (g.mkdirAll (parsePath (joinPath (dirname (renderPath ⟨true, qc ++ [n]⟩))
          compressedName))).2 = FS.mk (g.entries ++ new) := by
        rcases hmm : (g.mkdirAll (parsePath (joinPath (dirname (renderPath ⟨true, qc ++ [n]⟩))
          compressedName))).2 with ⟨es⟩
        rw [hmm] at hmk
        simp only at hmk
        rw [hmk]
      rw [this]
      exact FS.maxLen_append g new (fun e he => (hbound e he).2)

theorem renderPath_inj (p1 p2 : PathC) (h1 : ∀ x ∈ p1.comps, validName x)
    (h2 : ∀ x ∈ p2.comps, validName x) (h : renderPath p1 = renderPath p2) :
    p1 = p2 := by
  have e1 := parsePath_renderPath p1.abs p1.comps h1
  have e2 := parsePath_renderPath p2.abs p2.comps h2
  calc p1 = parsePath (renderPath ⟨p1.abs, p1.comps⟩) := e1.symm
  _ = parsePath (renderPath ⟨p2.abs, p2.comps⟩) := by rw [show (⟨p1.abs, p1.comps⟩ : PathC) = p1 from rfl, show (⟨p2.abs, p2.comps⟩ : PathC) = p2 from rfl, h]
  _ = p2 := e2

theorem FS.kind_unique (g : FS) (hnd : g.Nodup) (p : PathC) (k1 k2 : EKind)
    (h1 : (p, k1) ∈ g.entries) (h2 : (p, k2) ∈ g.entries) : k1 = k2 := by
  have e1 := FS.kindOf_of_mem g hnd p k1 h1
  have e2 := FS.kindOf_of_mem g hnd p k2 h2
  rw [e1] at e2
  exact Option.some.inj e2

theorem prefix_next_eq (q : List Str) (n1 n2 : Str) (C : List Str)
    (h1 : (q ++ [n1]) <+: C) (h2 : (q ++ [n2]) <+: C) : n1 = n2 := by
  obtain ⟨t1, ht1⟩ := h1
  rw [← ht1] at h2
  rw [List.append_assoc] at h2
  rw [List.prefix_append_right_inj] at h2
  rcases h2 with ⟨t2, ht2⟩
  simp only [List.singleton_append, List.cons_append] at ht2
  injection ht2 with h3 _
  exact h3.symm

theorem pathc_eq (f : PathC) (ab : Bool) (cs : List Str) (h1 : f.abs = ab)
    (h2 : f.comps = cs) : f = ⟨ab, cs⟩ := by
  rw [← h1, ← h2]

theorem name_of_comps_eq (qc : List Str) (m1 m2 : Str) (r1 r2 : List Str)
    (h : qc ++ m1 :: r1 = qc ++ m2 :: r2) : m1 = m2 := by
  have h2 := List.append_cancel_left h
  injection h2

theorem render_eq_entry (g : FS) (hWF : g.WF) (f1 f2 : PathC) (k1 k2 : EKind)
    (h1 : (f1, k1) ∈ g.entries) (h2 : (f2, k2) ∈ g.entries)
    (h : renderPath f1 = renderPath f2) : f1 = f2 :=
  renderPath_inj f1 f2 (hWF.2.2 _ h1).1 (hWF.2.2 _ h2).1 h

theorem file_no_strict_desc (g : FS) (hWF : g.WF) (qc : List Str) (n : Str)
    (hfile : ((⟨true, qc ++ [n]⟩ : PathC), EKind.file) ∈ g.entries)
    (f : PathC) (hf : (f, EKind.file) ∈ g.entries)
    (rest : List Str) (hrest : rest ≠ [])
    (habs : f.abs = true) (hcomps : f.comps = qc ++ n :: rest) : False := by
  have hk : qc.length + 1 < f.comps.length := by
    rw [hcomps, List.length_append, List.length_cons]
    have : 0 < rest.length := List.length_pos.mpr hrest
    omega
  have hcl := hWF.2.1 (f, EKind.file) hf (qc.length + 1) hk (Nat.succ_pos _)
  have htake : f.comps.take (qc.length + 1) = qc ++ [n] := by
    rw [hcomps]
    have hsplit : qc ++ n :: rest = (qc ++ [n]) ++ rest := by simp
    rw [hsplit, List.take_append_of_le_length (by simp)]
    apply List.take_of_length_le
    simp
  rw [htake, habs] at hcl
  have := FS.kind_unique g hWF.1 ⟨true, qc ++ [n]⟩ EKind.file EKind.dir hfile hcl
  simp at this

theorem LoopConc_lift (format : Str) (recursive : Bool) (R : TravOut) (q : PathC)
    (ns : List Str) (g g1 : FS)
    (hext : ∃ new, g1.entries = g.entries ++ new ∧
       ∀ e ∈ new, e.2 = EKind.dir ∧ e.1.comps.length ≤ g.maxLen)
    (hml : g1.maxLen = g.maxLen)
    (h : LoopConc format recursive R q ns g1) :
    LoopConc format recursive R q ns g := by
  obtain ⟨new1, hnew1, hb1⟩ := hext
  obtain ⟨⟨new2, hnew2, hb2⟩, hW, hM, hS, hC, hV⟩ := h
  refine ⟨⟨new1 ++ new2, ?_, ?_⟩, hW, ?_, ?_, ?_, hV⟩
  · rw [hnew2, hnew1, List.append_assoc]
  · intro e he
    rcases List.mem_append.mp he with he | he
    · exact hb1 e he
    · have hb := hb2 e he
      exact ⟨hb.1, by rw [← hml]; exact hb.2⟩
  · rw [hM, hml]
  · intro x hx
    obtain ⟨f, hf, hHit, hend, hxe⟩ := hS x hx
    refine ⟨f, ?_, hHit, hend, hxe⟩
    rw [hnew1] at hf
    exact (file_mem_append_iff g new1 (fun e he => (hb1 e he).1) f).mp hf
  · intro f hf hHit hend
    apply hC f ?_ hHit hend
    rw [hnew1]
    exact List.mem_append_left _ hf

theorem LoopConc_cons_skip (format : Str) (recursive : Bool) (R : TravOut) (q : PathC)
    (n : Str) (ns : List Str) (g : FS)
    (h : LoopConc format recursive R q ns g)
    (hno : ∀ f : PathC, (f, EKind.file) ∈ g.entries → f.abs = q.abs →
       ∀ rest, f.comps = q.comps ++ n :: rest → (rest = [] ∨ recursive = true) →
       endsWithCI format (renderPath f) = true → False) :
    LoopConc format recursive R q (n :: ns) g := by
  obtain ⟨hE, hW, hM, hS, hC, hV1, hV2⟩ := h
  refine ⟨hE, hW, hM, ?_, ?_, hV1, ?_⟩
  · intro x hx
    obtain ⟨f, hf, ⟨hfa, m, hm, rest, hcm, hor⟩, hend, hxe⟩ := hS x hx
    exact ⟨f, hf, ⟨hfa, m, List.mem_cons_of_mem n hm, rest, hcm, hor⟩, hend, hxe⟩
  · intro f hf hHit hend
    obtain ⟨hfa, m, hm, rest, hcm, hor⟩ := hHit
    rcases List.mem_cons.mp hm with hm | hm
    · exact (hno f hf hfa rest (by rw [hcm, hm]) hor hend).elim
    · exact hC f hf ⟨hfa, m, hm, rest, hcm, hor⟩ hend
  · intro x hx
    obtain ⟨ha, m, hm, hp⟩ := hV2 x hx
    exact ⟨ha, m, List.mem_cons_of_mem n hm, hp⟩

theorem LoopConc_cons_hit (format : Str) (recursive : Bool) (R2 : TravOut)
    (q : PathC) (n : Str) (ns : List Str) (g : FS) (M : List Msg)
    (hq : q.abs = true) (hWF : g.WF) (hnn : n ∉ ns)
    (hk0 : ((⟨true, q.comps ++ [n]⟩ : PathC), EKind.file) ∈ g.entries)
    (hend : endsWithCI format (renderPath ⟨true, q.comps ++ [n]⟩) = true)
    (h : LoopConc format recursive R2 q ns g) :
    LoopConc format recursive
      ⟨R2.fs, renderPath ⟨true, q.comps ++ [n]⟩ :: R2.log, M, R2.visits⟩ q (n :: ns) g := by
  obtain ⟨hE, hW, hM, hS, hC, hV1, hV2⟩ := h
  refine ⟨hE, hW, hM, ?_, ?_, hV1, ?_⟩
  · intro x hx
    rcases List.mem_cons.mp hx with hx | hx
    · exact ⟨⟨true, q.comps ++ [n]⟩, hk0,
        ⟨hq.symm, n, List.mem_cons_self n ns, [], rfl, Or.inl rfl⟩, hend, hx⟩
    · obtain ⟨f, hf, ⟨hfa, m, hm, rest, hcm, hor⟩, hend2, hxe⟩ := hS x hx
      exact ⟨f, hf, ⟨hfa, m, List.mem_cons_of_mem n hm, rest, hcm, hor⟩, hend2, hxe⟩
  · intro f hf hHit hend2
    dsimp only
    by_cases heq : renderPath f = renderPath ⟨true, q.comps ++ [n]⟩
    · rw [heq, List.count_cons_self]
      have hzero : R2.log.count (renderPath ⟨true, q.comps ++ [n]⟩) = 0 := by
        rw [List.count_eq_zero]
        intro hin
        obtain ⟨f2, hf2, ⟨hfa2, m2, hm2, rest2, hcm2, hor2⟩, hend3, hxe2⟩ := hS _ hin
        have hfe2 : f2 = ⟨true, q.comps ++ [n]⟩ :=
          render_eq_entry g hWF f2 ⟨true, q.comps ++ [n]⟩ EKind.file EKind.file
            hf2 hk0 hxe2.symm
        have hcc : (q.comps ++ [n] : List Str) = q.comps ++ m2 :: rest2 := by
          rw [← hcm2, hfe2]
        have hm2n : n = m2 := name_of_comps_eq q.comps n m2 [] rest2 hcc
        exact hnn (by rw [hm2n]; exact hm2)
      rw [hzero]
    · rw [List.count_cons_of_ne heq]
      obtain ⟨hfa, m, hm, rest, hcm, hor⟩ := hHit
      rcases List.mem_cons.mp hm with hm | hm
      · rcases hor with hrest | hrec
        · exfalso
          apply heq
          have hfe : f = ⟨true, q.comps ++ [n]⟩ :=
            pathc_eq f true (q.comps ++ [n]) (by rw [hfa, hq]) (by rw [hcm, hm, hrest])
          rw [hfe]
        · by_cases hrest : rest = []
          · exfalso
            apply heq
            have hfe : f = ⟨true, q.comps ++ [n]⟩ :=
              pathc_eq f true (q.comps ++ [n]) (by rw [hfa, hq]) (by rw [hcm, hm, hrest])
            rw [hfe]
          · exact (file_no_strict_desc g hWF q.comps n hk0 f hf rest hrest
              (by rw [hfa, hq]) (by rw [hcm, hm])).elim
      · exact hC f hf ⟨hfa, m, hm, rest, hcm, hor⟩ hend2
  · intro x hx
    obtain ⟨ha, m, hm, hp⟩ := hV2 x hx
    exact ⟨ha, m, List.mem_cons_of_mem n hm, hp⟩

theorem LoopConc_cons_dir (format : Str) (recursive : Bool) (r1 R2 : TravOut)
    (q : PathC) (n : Str) (ns : List Str) (g : FS)
    (hq : q.abs = true) (hWF : g.WF) (hnn : n ∉ ns) (hr : recursive = true)
    (hk0 : ((⟨true, q.comps ++ [n]⟩ : PathC), EKind.dir) ∈ g.entries)
    (hgo : GoConc format recursive r1 ⟨true, q.comps ++ [n]⟩ g)
    (h : LoopConc format recursive R2 q ns g) :
    LoopConc format recursive
      ⟨R2.fs, r1.log ++ R2.log, r1.msgs ++ R2.msgs, r1.visits ++ R2.visits⟩ q (n :: ns) g := by
  obtain ⟨hE, hW, hM, hS, hC, hV1, hV2⟩ := h
  obtain ⟨hE1, hW1, hM1, hS1, hC1, hV1a, hV1b⟩ := hgo
  refine ⟨hE, hW, hM, ?_, ?_, ?_, ?_⟩
  · intro x hx
    rcases List.mem_append.mp hx with hx | hx
    · obtain ⟨f, hf, ⟨hfa, cs, hcs, hcm, hlen⟩, hend2, hxe⟩ := hS1 x hx
      refine ⟨f, hf, ⟨?_, n, List.mem_cons_self n ns, cs, ?_, Or.inr hr⟩, hend2, hxe⟩
      · rw [hfa]
        exact hq.symm
      · rw [hcm]
        simp
    · obtain ⟨f, hf, ⟨hfa, m, hm, rest, hcm, hor⟩, hend2, hxe⟩ := hS x hx
      exact ⟨f, hf, ⟨hfa, m, List.mem_cons_of_mem n hm, rest, hcm, hor⟩, hend2, hxe⟩
  · intro f hf hHit hend2
    obtain ⟨hfa, m, hm, rest, hcm, hor⟩ := hHit
    dsimp only
    rw [List.count_append]
    rcases List.mem_cons.mp hm with hm | hm
    · have hrest : rest ≠ [] := by
        intro h0
        have hfe : f = ⟨true, q.comps ++ [n]⟩ :=
          pathc_eq f true (q.comps ++ [n]) (by rw [hfa, hq]) (by rw [hcm, hm, h0])
        have hku := FS.kind_unique g hWF.1 ⟨true, q.comps ++ [n]⟩ EKind.file EKind.dir
          (by rw [← hfe]; exact hf) hk0
        simp at hku
      have hHU : HitsUnder recursive ⟨true, q.comps ++ [n]⟩ f := by
        refine ⟨?_, rest, hrest, ?_, Or.inr hr⟩
        · rw [hfa]
          exact hq
        · rw [hcm, hm]
          simp
      have hc1 : r1.log.count (renderPath f) = 1 := hC1 f hf hHU hend2
      have hc2 : R2.log.count (renderPath f) = 0 := by
        rw [List.count_eq_zero]
        intro hin
        obtain ⟨f2, hf2, ⟨hfa2, m2, hm2, rest2, hcm2, hor2⟩, hend3, hxe2⟩ := hS _ hin
        have hfe2 : f = f2 :=
          render_eq_entry g hWF f f2 EKind.file EKind.file hf hf2 hxe2
        have hcc : q.comps ++ m :: rest = q.comps ++ m2 :: rest2 := by
          rw [← hcm, ← hcm2, hfe2]
        have hmm := name_of_comps_eq q.comps m m2 rest rest2 hcc
        rw [hm] at hmm
        exact hnn (by rw [hmm]; exact hm2)
      rw [hc1, hc2]
    · have hc2 : R2.log.count (renderPath f) = 1 :=
        hC f hf ⟨hfa, m, hm, rest, hcm, hor⟩ hend2
      have hc1 : r1.log.count (renderPath f) = 0 := by
        rw [List.count_eq_zero]
        intro hin
        obtain ⟨f2, hf2, ⟨hfa2, cs2, hcs2, hcm2, hlen2⟩, hend3, hxe2⟩ := hS1 _ hin
        have hfe2 : f = f2 :=
          render_eq_entry g hWF f f2 EKind.file EKind.file hf hf2 hxe2
        have hcc : q.comps ++ m :: rest = q.comps ++ n :: cs2 := by
          rw [← hcm, hfe2, hcm2]
          simp
        have hmm := name_of_comps_eq q.comps m n rest cs2 hcc
        exact hnn (by rw [← hmm]; exact hm)
      rw [hc1, hc2]
  · dsimp only
    rw [List.map_append]
    apply List.Nodup.append hV1a hV1
    intro a ha1 ha2
    obtain ⟨x1, hx1, he1⟩ := List.mem_map.mp ha1
    obtain ⟨x2, hx2, he2⟩ := List.mem_map.mp ha2
    have hp1 := (hV1b x1 hx1).2
    obtain ⟨ha2b, m, hm, hp2⟩ := hV2 x2 hx2
    have hpe : parsePath x1 = parsePath x2 := by rw [he1, he2]
    have hp1b : q.comps ++ [n] <+: (parsePath x2).comps := by
      rw [← hpe]
      exact hp1
    have hnm := prefix_next_eq q.comps n m (parsePath x2).comps hp1b hp2
    exact hnn (by rw [hnm]; exact hm)
  · intro x hx
    dsimp only at hx
    rcases List.mem_append.mp hx with hx | hx
    · have h1 := hV1b x hx
      refine ⟨?_, n, List.mem_cons_self n ns, h1.2⟩
      rw [h1.1]
      exact hq.symm
    · obtain ⟨ha, m, hm, hp⟩ := hV2 x hx
      exact ⟨ha, m, List.mem_cons_of_mem n hm, hp⟩

theorem traverseLoop_main (op : FileContext → Bool) (format : Str) (recursive : Bool)
    (fuel : Nat) (hrec : GoPred op format recursive fuel)
    (hdot : '.' ∈ format) (hslash : '/' ∉ format) (s : Str)
    (habs : (parsePath s).abs = true) :
    ∀ (ns : List Str) (g : FS), g.WF →
      g.maxLen ≤ fuel + (parsePath s).comps.length →
      (∀ n ∈ ns, ∃ k, ((⟨true, (parsePath s).comps ++ [n]⟩ : PathC), k) ∈ g.entries) →
      ns.Nodup →
      LoopConc format recursive
        (traverseLoop op format recursive (traverse op format recursive fuel) s ns g)
        (parsePath s) ns g := by
  intro ns
  induction ns with
  | nil =>
    intro g hWF hml hmem hnd
    show LoopConc format recursive ⟨g, [], [], []⟩ (parsePath s) [] g
    refine ⟨⟨[], by simp, by simp⟩, hWF, rfl, ?_, ?_, by simp, ?_⟩
    · intro x hx
      exact absurd hx (List.not_mem_nil x)
    · intro f hf hHit hend
      obtain ⟨hfa, m, hm, hrest⟩ := hHit
      exact absurd hm (List.not_mem_nil m)
    · intro x hx
      exact absurd hx (List.not_mem_nil x)
  | cons n ns ih =>
    intro g hWF hml hmem hnd
    obtain ⟨k0, hk0⟩ := hmem n (List.mem_cons_self n ns)
    have hnn : n ∉ ns := (List.nodup_cons.mp hnd).1
    have hnd2 : ns.Nodup := (List.nodup_cons.mp hnd).2
    have hvc : ∀ x ∈ (parsePath s).comps ++ [n], validName x := (hWF.2.2 _ hk0).1
    have hvn : validName n := hvc n (by simp)
    have horp : joinPath s (childStr s n) =
        renderPath ⟨true, (parsePath s).comps ++ [n]⟩ := by
      rw [joinPath_childStr_abs s n habs, childStr, habs]
    have hparse : parsePath (joinPath s (childStr s n)) =
        (⟨true, (parsePath s).comps ++ [n]⟩ : PathC) := by
      rw [horp]
      exact parsePath_renderPath true _ hvc
    have hkind : g.kindOf ⟨true, (parsePath s).comps ++ [n]⟩ = some k0 :=
      FS.kindOf_of_mem g hWF.1 _ k0 hk0
    have hmem2 : ∀ m ∈ ns, ∃ k, ((⟨true, (parsePath s).comps ++ [m]⟩ : PathC), k) ∈ g.entries :=
      fun m hm => hmem m (List.mem_cons_of_mem n hm)
    have hex : ¬ (g.exists_ (joinPath s (childStr s n)) = false) := by
      simp [FS.exists_, hparse, hkind]
    simp only [traverseLoop]
    rw [if_neg hex]
    rcases k0 with _ | _
    · -- the child is a file
      have hisf : ¬ (g.isfile (joinPath s (childStr s n)) = false) := by
        simp [FS.isfile, hparse, hkind]
      rw [if_neg hisf]
      by_cases hmt : endsWithCI format (joinPath s (childStr s n)) = true
      · rw [if_pos hmt]
        have hmren : endsWithCI format (renderPath ⟨true, (parsePath s).comps ++ [n]⟩) = true := by
          rw [← horp]
          exact hmt
        have hmn : endsWithCI format n = true := by
          have h0 := hmren
          rw [endsWithCI_render_snoc format _ n hslash hvn] at h0
          exact h0
        have hdotn : '.' ∈ n := by
          have h1 : lowerS format <:+ lowerS n := (endsWithCI_iff format n).mp hmn
          exact dot_mem_of_lowerS n (h1.subset (dot_mem_lowerS format hdot))
        obtain ⟨ctx, g1, hinit, hctxof, hextg1, hWF1, hml1⟩ :=
          FileContext.init_at_child g (parsePath s).comps n hWF hk0 hdotn
        rw [← horp] at hinit
        rw [hinit]
        have hmemg1 : ∀ m ∈ ns, ∃ k, ((⟨true, (parsePath s).comps ++ [m]⟩ : PathC), k) ∈ g1.entries := by
          intro m hm
          obtain ⟨k, hk⟩ := hmem2 m hm
          obtain ⟨new1, hnew1, hb1⟩ := hextg1
          exact ⟨k, by rw [hnew1]; exact List.mem_append_left _ hk⟩
        have hIH := ih g1 hWF1 (by rw [hml1]; exact hml) hmemg1 hnd2
        have hIHg := LoopConc_lift format recursive _ (parsePath s) ns g g1 hextg1 hml1 hIH
        have hconc := LoopConc_cons_hit format recursive
          (traverseLoop op format recursive (traverse op format recursive fuel) s ns g1)
          (parsePath s) n ns g
          ((if op ctx = true then [] else [Msg.errorProcessing (joinPath s (childStr s n))]) ++
            (traverseLoop op format recursive (traverse op format recursive fuel) s ns g1).msgs)
          habs hWF hnn hk0 hmren hIHg
        rw [horp]
        exact hconc
      · rw [if_neg hmt]
        have hIH := ih g hWF hml hmem2 hnd2
        apply LoopConc_cons_skip format recursive _ (parsePath s) n ns g hIH
        intro f hf hfa rest hcm hor hend
        by_cases hrest : rest = []
        · have hfe : f = ⟨true, (parsePath s).comps ++ [n]⟩ :=
            pathc_eq f true ((parsePath s).comps ++ [n]) (by rw [hfa, habs]) (by rw [hcm, hrest])
          apply hmt
          rw [horp, ← hfe]
          exact hend
        · exact file_no_strict_desc g hWF (parsePath s).comps n
            (by
              have hku := FS.kind_unique g hWF.1 ⟨true, (parsePath s).comps ++ [n]⟩
              exact hk0) f hf rest hrest (by rw [hfa, habs]) hcm
    · -- the child is a directory
      have hisf : g.isfile (joinPath s (childStr s n)) = false := by
        simp [FS.isfile, hparse, hkind]
      rw [if_pos hisf]
      by_cases hr : recursive = true
      · rw [if_pos hr]
        have hkdir : g.kindOf (parsePath (joinPath s (childStr s n))) = some EKind.dir := by
          rw [hparse]
          exact hkind
        have hgo := hrec (joinPath s (childStr s n)) g hdot hslash
          (by rw [hparse]) hWF hkdir
          (by
            rw [hparse]
            simp only [List.length_append, List.length_cons, List.length_nil]
            omega)
        rw [hparse] at hgo
        obtain ⟨hE1, hW1, hM1, hrest1⟩ := hgo
        have hmemr1 : ∀ m ∈ ns, ∃ k, ((⟨true, (parsePath s).comps ++ [m]⟩ : PathC), k) ∈
            (traverse op format recursive fuel (joinPath s (childStr s n)) g).fs.entries := by
          intro m hm
          obtain ⟨k, hk⟩ := hmem2 m hm
          obtain ⟨new1, hnew1, hb1⟩ := hE1
          exact ⟨k, by rw [hnew1]; exact List.mem_append_left _ hk⟩
        have hIH := ih (traverse op format recursive fuel (joinPath s (childStr s n)) g).fs
          hW1 (by rw [hM1]; exact hml) hmemr1 hnd2
        have hIHg := LoopConc_lift format recursive _ (parsePath s) ns g _ hE1 hM1 hIH
        exact LoopConc_cons_dir format recursive _ _ (parsePath s) n ns g
          habs hWF hnn hr hk0 ⟨hE1, hW1, hM1, hrest1⟩ hIHg
      · rw [if_neg hr]
        have hIH := ih g hWF hml hmem2 hnd2
        apply LoopConc_cons_skip format recursive _ (parsePath s) n ns g hIH
        intro f hf hfa rest hcm hor hend
        rcases hor with hrest | hrec2
        · have hfe : f = ⟨true, (parsePath s).comps ++ [n]⟩ :=
            pathc_eq f true ((parsePath s).comps ++ [n]) (by rw [hfa, habs]) (by rw [hcm, hrest])
          have hku := FS.kind_unique g hWF.1 ⟨true, (parsePath s).comps ++ [n]⟩
            EKind.file EKind.dir (by rw [← hfe]; exact hf) hk0
          simp at hku
        · exact hr hrec2

theorem traverse_main (op : FileContext → Bool) (format : Str) (recursive : Bool) :
    ∀ fuel, GoPred op format recursive fuel := by
  intro fuel
  induction fuel with
  | zero =>
    intro s g hdot hslash habs hWF hkind hb
    exfalso
    have hmem := FS.mem_of_kindOf g (parsePath s) EKind.dir hkind
    have := FS.maxLen_ge g _ hmem
    simp only at this
    omega
  | succ fuel ih =>
    intro s g hdot hslash habs hWF hkind hb
    rw [traverse_succ]
    have hex : ¬ (g.exists_ s = false) := by
      simp [FS.exists_, hkind]
    rw [if_neg hex]
    have hdir : ¬ (g.isdir s = false) := by
      simp [FS.isdir, hkind]
    rw [if_neg hdir]
    have hmem : ∀ n ∈ g.childNames (parsePath s),
        ∃ k, ((⟨true, (parsePath s).comps ++ [n]⟩ : PathC), k) ∈ g.entries := by
      intro n hn
      obtain ⟨k, hk⟩ := (FS.childNames_mem g (parsePath s) n).mp hn
      rw [habs] at hk
      exact ⟨k, hk⟩
    have hloop := traverseLoop_main op format recursive fuel ih hdot hslash s habs
      (g.childNames (parsePath s)) g hWF (by omega) hmem
      (FS.childNames_nodup g hWF.1 (parsePath s))
    obtain ⟨hE, hW, hM, hS, hC, hV1, hV2⟩ := hloop
    refine ⟨hE, hW, hM, ?_, ?_, ?_, ?_⟩
    · intro x hx
      obtain ⟨f, hf, ⟨hfa, m, hm, rest, hcm, hor⟩, hend, hxe⟩ := hS x hx
      refine ⟨f, hf, ⟨hfa, m :: rest, by simp, hcm, ?_⟩, hend, hxe⟩
      rcases hor with hrest | hrec2
      · rw [hrest]
        exact Or.inl rfl
      · exact Or.inr hrec2
    · intro f hf hHU hend
      obtain ⟨hfa, cs, hcs, hcm, hor⟩ := hHU
      rcases cs with _ | ⟨m, rest⟩
      · exact absurd rfl hcs
      · have hmm : m ∈ g.childNames (parsePath s) := by
          apply (FS.childNames_mem g (parsePath s) m).mpr
          by_cases hrest : rest = []
          · refine ⟨EKind.file, ?_⟩
            have hfe : f = ⟨(parsePath s).abs, (parsePath s).comps ++ [m]⟩ :=
              pathc_eq f (parsePath s).abs ((parsePath s).comps ++ [m])
                hfa (by rw [hcm, hrest])
            rw [← hfe]
            exact hf
          · refine ⟨EKind.dir, ?_⟩
            have hk : (parsePath s).comps.length + 1 < f.comps.length := by
              rw [hcm, List.length_append, List.length_cons]
              have : 0 < rest.length := List.length_pos.mpr hrest
              omega
            have hcl := hWF.2.1 (f, EKind.file) hf ((parsePath s).comps.length + 1) hk
              (Nat.succ_pos _)
            have htake : f.comps.take ((parsePath s).comps.length + 1) =
                (parsePath s).comps ++ [m] := by
              rw [hcm]
              have hsplit : (parsePath s).comps ++ m :: rest =
                  ((parsePath s).comps ++ [m]) ++ rest := by simp
              rw [hsplit, List.take_append_of_le_length (by simp)]
              apply List.take_of_length_le
              simp
            rw [htake, hfa] at hcl
            exact hcl
        apply hC f hf ?_ hend
        refine ⟨hfa, m, hmm, rest, hcm, ?_⟩
        rcases hor with hlen | hrec2
        · rw [List.length_cons] at hlen
          exact Or.inl (by
            have : rest.length = 0 := by omega
            exact List.eq_nil_of_length_eq_zero this)
        · exact Or.inr hrec2
    · dsimp only
      rw [List.map_cons, List.nodup_cons]
      refine ⟨?_, hV1⟩
      intro hmem2
      obtain ⟨x, hx, he⟩ := List.mem_map.mp hmem2
      have hp := (hV2 x hx).2
      obtain ⟨m, hm, hp2⟩ := hp
      rw [he] at hp2
      have hle := hp2.length_le
      simp only [List.length_append, List.length_cons, List.length_nil] at hle
      omega
    · intro x hx
      rcases List.mem_cons.mp hx with hx | hx
      · rw [hx]
        exact ⟨rfl, List.prefix_refl _⟩
      · have h2 := hV2 x hx
        obtain ⟨m, hm, hp2⟩ := h2.2
        exact ⟨h2.1, (List.prefix_append _ _).trans hp2⟩

theorem FileContext.init_orig (fs : FS) (p : Str) (ctx : FileContext) (fs' : FS)
    (h : FileContext.init fs p = (some ctx, fs')) : ctx.original_file = p := by
  obtain ⟨nm, fm, hr, hctx⟩ := FileContext.init_some fs p ctx fs' h
  rw [hctx]

theorem traverseLoop_err (op : FileContext → Bool) (format : Str) (recursive : Bool)
    (rec : Str → FS → TravOut)
    (hrec : ∀ s g x, x ∈ (rec s g).log →
      (∀ ctx : FileContext, ctx.original_file = x → op ctx = false) →
      Msg.errorProcessing x ∈ (rec s g).msgs)
    (dir : Str) : ∀ (ns : List Str) (g : FS) (x : Str),
    x ∈ (traverseLoop op format recursive rec dir ns g).log →
    (∀ ctx : FileContext, ctx.original_file = x → op ctx = false) →
    Msg.errorProcessing x ∈ (traverseLoop op format recursive rec dir ns g).msgs := by
  intro ns
  induction ns with
  | nil =>
    intro g x hx hop
    exact absurd hx (List.not_mem_nil x)
  | cons n ns ih =>
    intro g x hx hop
    simp only [traverseLoop] at hx ⊢
    by_cases h1 : g.exists_ (joinPath dir (childStr dir n)) = false
    · rw [if_pos h1] at hx ⊢
      exact List.mem_cons_of_mem _ (ih g x hx hop)
    · rw [if_neg h1] at hx ⊢
      by_cases h2 : g.isfile (joinPath dir (childStr dir n)) = false
      · rw [if_pos h2] at hx ⊢
        by_cases h3 : recursive = true
        · rw [if_pos h3] at hx ⊢
          rcases List.mem_append.mp hx with hx | hx
          · exact List.mem_append_left _ (hrec _ _ x hx hop)
          · exact List.mem_append_right _ (ih _ x hx hop)
        · rw [if_neg h3] at hx ⊢
          exact ih g x hx hop
      · rw [if_neg h2] at hx ⊢
        by_cases h4 : endsWithCI format (joinPath dir (childStr dir n)) = true
        · rw [if_pos h4] at hx ⊢
          rcases hinit : FileContext.init g (joinPath dir (childStr dir n)) with ⟨octx, g1⟩
          rcases octx with _ | ctx
          · rw [hinit] at hx
            exact List.mem_cons_of_mem _ (ih g1 x hx hop)
          · rw [hinit] at hx
            dsimp only at hx ⊢
            rcases List.mem_cons.mp hx with hx | hx
            · have horig : ctx.original_file = joinPath dir (childStr dir n) :=
                FileContext.init_orig g _ ctx g1 hinit
              have hfail : op ctx = false := hop ctx (by rw [horig, hx])
              rw [hfail, hx]
              simp
            · exact List.mem_append_right _ (ih g1 x hx hop)
        · rw [if_neg h4] at hx ⊢
          exact ih g x hx hop

theorem traverse_err (op : FileContext → Bool) (format : Str) (recursive : Bool) :
    ∀ (fuel : Nat) (dir : Str) (g : FS) (x : Str),
    x ∈ (traverse op format recursive fuel dir g).log →
    (∀ ctx : FileContext, ctx.original_file = x → op ctx = false) →
    Msg.errorProcessing x ∈ (traverse op format recursive fuel dir g).msgs := by
  intro fuel
  induction fuel with
  | zero =>
    intro dir g x hx hop
    rw [traverse_zero] at hx
    exact absurd hx (List.not_mem_nil x)
  | succ fuel ih =>
    intro dir g x hx hop
    rw [traverse_succ] at hx ⊢
    by_cases h1 : g.exists_ dir = false
    · rw [if_pos h1] at hx
      exact absurd hx (List.not_mem_nil x)
    · rw [if_neg h1] at hx ⊢
      by_cases h2 : g.isdir dir = false
      · rw [if_pos h2] at hx
        exact absurd hx (List.not_mem_nil x)
      · rw [if_neg h2] at hx ⊢
        exact traverseLoop_err op format recursive _ ih dir _ g x hx hop

/-- Counterexample to Claim C1 as stated: `fsRel` holds a relative root
directory `rel` with a direct child file `rel/a.mp4` matching the filter
`.mp4`, yet a non-recursive run over `rel` never invokes the Transform
Operation (the path-join defect makes the existence check fail for every
entry). -/
theorem claimC1_counterexample :
    ((⟨false, [strL ("rel"), strL ("a.mp4")]⟩ : PathC), EKind.file) ∈ fsRel.entries ∧
    ((⟨false, [strL ("rel")]⟩ : PathC), EKind.dir) ∈ fsRel.entries ∧
    endsWithCI (strL (".mp4")) (strL ("a.mp4")) = true ∧
    (traverse (fun _ => true) (strL (".mp4")) false 2 (strL ("rel")) fsRel).log = [] := by
  decide

/-- Claim C1 (amended): for an ABSOLUTE root directory (on a well-formed
filesystem, with a dotted slash-free filter and fuel at least the tree
depth), a non-recursive run invokes the Transform Operation exactly once
on every direct child file whose name ends with the filter
(case-insensitively), never on a direct child file whose name does not,
and every invocation is on some matching file of the filesystem. -/
theorem claimC1 (op : FileContext → Bool) (format : Str) (fuel : Nat) (d : Str)
    (g : FS) (n : Str)
    (hdot : '.' ∈ format) (hslash : '/' ∉ format)
    (habs : (parsePath d).abs = true) (hWF : g.WF)
    (hroot : g.kindOf (parsePath d) = some EKind.dir)
    (hfuel : g.maxLen + 1 ≤ fuel + (parsePath d).comps.length)
    (hchild : ((⟨true, (parsePath d).comps ++ [n]⟩ : PathC), EKind.file) ∈ g.entries) :
    (endsWithCI format n = true →
      (traverse op format false fuel d g).log.count
        (renderPath ⟨true, (parsePath d).comps ++ [n]⟩) = 1) ∧
    (endsWithCI format n = false →
      renderPath ⟨true, (parsePath d).comps ++ [n]⟩ ∉ (traverse op format false fuel d g).log) ∧
    (∀ x ∈ (traverse op format false fuel d g).log, ∃ f : PathC,
      (f, EKind.file) ∈ g.entries ∧ endsWithCI format (renderPath f) = true ∧
      x = renderPath f) := by
  have hgo := traverse_main op format false fuel d g hdot hslash habs hWF hroot hfuel
  obtain ⟨hE, hW, hM, hS, hC, hV⟩ := hgo
  have hvn : validName n := (hWF.2.2 _ hchild).1 n (by simp)
  have hrs : endsWithCI format (renderPath ⟨true, (parsePath d).comps ++ [n]⟩) =
      endsWithCI format n := endsWithCI_render_snoc format (parsePath d).comps n hslash hvn
  refine ⟨?_, ?_, ?_⟩
  · intro hm
    apply hC ⟨true, (parsePath d).comps ++ [n]⟩ hchild
    · exact ⟨habs.symm, [n], by simp, rfl, Or.inl rfl⟩
    · rw [hrs]
      exact hm
  · intro hm hin
    obtain ⟨f, hf, hHU, hend, hxe⟩ := hS _ hin
    have hfe : f = ⟨true, (parsePath d).comps ++ [n]⟩ :=
      (render_eq_entry g hWF ⟨true, (parsePath d).comps ++ [n]⟩ f EKind.file EKind.file
        hchild hf hxe).symm
    rw [hfe, hrs, hm] at hend
    exact absurd hend (by simp)
  · intro x hx
    obtain ⟨f, hf, hHU, hend, hxe⟩ := hS x hx
    exact ⟨f, hf, hend, hxe⟩

theorem claimC1_witness :
    ((endsWithCI (strL (".mp4")) (strL ("a.mp4")) = true →
      (traverse (fun _ => true) (strL (".mp4")) false 3 (strL ("/d")) fsAbs).log.count
        (renderPath ⟨true, (parsePath (strL ("/d"))).comps ++ [strL ("a.mp4")]⟩) = 1) ∧
    (endsWithCI (strL (".mp4")) (strL ("a.mp4")) = false →
      renderPath ⟨true, (parsePath (strL ("/d"))).comps ++ [strL ("a.mp4")]⟩ ∉
        (traverse (fun _ => true) (strL (".mp4")) false 3 (strL ("/d")) fsAbs).log) ∧
    (∀ x ∈ (traverse (fun _ => true) (strL (".mp4")) false 3 (strL ("/d")) fsAbs).log,
      ∃ f : PathC, (f, EKind.file) ∈ fsAbs.entries ∧
        endsWithCI (strL (".mp4")) (renderPath f) = true ∧ x = renderPath f)) :=
  claimC1 (fun _ => true) (strL (".mp4")) 3 (strL ("/d")) fsAbs (strL ("a.mp4"))
    (by decide) (by decide) (by decide) (by decide) (by decide) (by decide) (by decide)

/-- Counterexample to Claim C2 as stated: a recursive run over the
relative root `rel` of `fsRel` never invokes the Transform Operation,
although the matching file `rel/a.mp4` lies under the root. -/
theorem claimC2_counterexample :
    ((⟨false, [strL ("rel"), strL ("a.mp4")]⟩ : PathC), EKind.file) ∈ fsRel.entries ∧
    endsWithCI (strL (".mp4")) (strL ("a.mp4")) = true ∧
    (traverse (fun _ => true) (strL (".mp4")) true 2 (strL ("rel")) fsRel).log = [] := by
  decide

/-- Claim C2 (amended): for an ABSOLUTE root directory (on a well-formed
filesystem, dotted slash-free filter, fuel at least the tree depth), a
recursive run invokes the Transform Operation exactly once on every file
at any depth under the root whose name ends with the filter
(case-insensitively), and no directory is iterated twice during the
run. -/
theorem claimC2 (op : FileContext → Bool) (format : Str) (fuel : Nat) (d : Str)
    (g : FS) (cs : List Str) (n : Str)
    (hdot : '.' ∈ format) (hslash : '/' ∉ format)
    (habs : (parsePath d).abs = true) (hWF : g.WF)
    (hroot : g.kindOf (parsePath d) = some EKind.dir)
    (hfuel : g.maxLen + 1 ≤ fuel + (parsePath d).comps.length)
    (hfile : ((⟨true, (parsePath d).comps ++ cs ++ [n]⟩ : PathC), EKind.file) ∈ g.entries)
    (hmatch : endsWithCI format n = true) :
    (traverse op format true fuel d g).log.count
      (renderPath ⟨true, (parsePath d).comps ++ cs ++ [n]⟩) = 1 ∧
    ((traverse op format true fuel d g).visits.map parsePath).Nodup := by
  have hgo := traverse_main op format true fuel d g hdot hslash habs hWF hroot hfuel
  obtain ⟨hE, hW, hM, hS, hC, hV⟩ := hgo
  have hvn : validName n := (hWF.2.2 _ hfile).1 n (by simp)
  refine ⟨?_, hV.1⟩
  apply hC ⟨true, (parsePath d).comps ++ cs ++ [n]⟩ hfile
  · refine ⟨habs.symm, cs ++ [n], by simp, ?_, Or.inr rfl⟩
    rw [List.append_assoc]
  · rw [endsWithCI_render_snoc format ((parsePath d).comps ++ cs) n hslash hvn]
    exact hmatch

theorem claimC2_witness :
    ((traverse (fun _ => true) (strL (".mp4")) true 3 (strL ("/d")) fsAbs).log.count
      (renderPath ⟨true, (parsePath (strL ("/d"))).comps ++ [strL ("sub")] ++
        [strL ("c.mp4")]⟩) = 1 ∧
    ((traverse (fun _ => true) (strL (".mp4")) true 3 (strL ("/d")) fsAbs).visits.map
      parsePath).Nodup) :=
  claimC2 (fun _ => true) (strL (".mp4")) 3 (strL ("/d")) fsAbs [strL ("sub")]
    (strL ("c.mp4")) (by decide) (by decide) (by decide) (by decide) (by decide)
    (by decide) (by decide) (by decide)

/-- Claim C7: a Transform Operation failure on one file is caught and
reported with that file's path and the traversal continues: for two
matching direct child files A and B of an absolute root where the
operation fails exactly on A, both A and B are attempted (invoked), and
the `Error processing file` message carries A's path. -/
theorem claimC7 (op : FileContext → Bool) (format : Str) (recursive : Bool) (fuel : Nat)
    (d : Str) (g : FS) (na nb : Str)
    (hdot : '.' ∈ format) (hslash : '/' ∉ format)
    (habs : (parsePath d).abs = true) (hWF : g.WF)
    (hroot : g.kindOf (parsePath d) = some EKind.dir)
    (hfuel : g.maxLen + 1 ≤ fuel + (parsePath d).comps.length)
    (hA : ((⟨true, (parsePath d).comps ++ [na]⟩ : PathC), EKind.file) ∈ g.entries)
    (hB : ((⟨true, (parsePath d).comps ++ [nb]⟩ : PathC), EKind.file) ∈ g.entries)
    (hmA : endsWithCI format na = true) (hmB : endsWithCI format nb = true)
    (hopA : ∀ ctx : FileContext,
      ctx.original_file = renderPath ⟨true, (parsePath d).comps ++ [na]⟩ →
      op ctx = false) :
    renderPath ⟨true, (parsePath d).comps ++ [na]⟩ ∈
      (traverse op format recursive fuel d g).log ∧
    renderPath ⟨true, (parsePath d).comps ++ [nb]⟩ ∈
      (traverse op format recursive fuel d g).log ∧
    Msg.errorProcessing (renderPath ⟨true, (parsePath d).comps ++ [na]⟩) ∈
      (traverse op format recursive fuel d g).msgs := by
  have hgo := traverse_main op format recursive fuel d g hdot hslash habs hWF hroot hfuel
  obtain ⟨hE, hW, hM, hS, hC, hV⟩ := hgo
  have hmemlog : ∀ m : Str, ((⟨true, (parsePath d).comps ++ [m]⟩ : PathC), EKind.file) ∈
      g.entries → endsWithCI format m = true →
      renderPath ⟨true, (parsePath d).comps ++ [m]⟩ ∈
        (traverse op format recursive fuel d g).log := by
    intro m hm hem
    have hvm : validName m := (hWF.2.2 _ hm).1 m (by simp)
    have hcount := hC ⟨true, (parsePath d).comps ++ [m]⟩ hm
      ⟨habs.symm, [m], by simp, rfl, Or.inl rfl⟩
      (by rw [endsWithCI_render_snoc format (parsePath d).comps m hslash hvm]; exact hem)
    by_contra h0
    rw [List.count_eq_zero_of_not_mem h0] at hcount
    exact absurd hcount (by simp)
  have hinA := hmemlog na hA hmA
  refine ⟨hinA, hmemlog nb hB hmB, ?_⟩
  exact traverse_err op format recursive fuel d g _ hinA hopA

theorem claimC7_witness :
    (renderPath ⟨true, (parsePath (strL ("/d"))).comps ++ [strL ("a.mp4")]⟩ ∈
      (traverse opC7 (strL (".mp4")) false 2 (strL ("/d")) fsTwo).log ∧
    renderPath ⟨true, (parsePath (strL ("/d"))).comps ++ [strL ("b.mp4")]⟩ ∈
      (traverse opC7 (strL (".mp4")) false 2 (strL ("/d")) fsTwo).log ∧
    Msg.errorProcessing (renderPath ⟨true, (parsePath (strL ("/d"))).comps ++
        [strL ("a.mp4")]⟩) ∈
      (traverse opC7 (strL (".mp4")) false 2 (strL ("/d")) fsTwo).msgs) :=
  claimC7 opC7 (strL (".mp4")) false 2 (strL ("/d")) fsTwo (strL ("a.mp4")) (strL ("b.mp4"))
    (by decide) (by decide) (by decide) (by decide) (by decide) (by decide) (by decide)
    (by decide) (by decide) (by decide)
    (fun ctx h => by simp only [opC7]; rw [h]; decide)
